import Mathlib

/-!
Shallow embedding of the open-addressed hash table in `src/HashTable.cpp`
(class `HashTable` with nested `HashTableBucket`), together with proofs of
the specification claims.

Modelling conventions:
* `std::vector` becomes `List`; `size_t` values become `Nat`
  (no arithmetic in the program can overflow a 64-bit counter on the
  inputs we reason about, and indices are always reduced `% capacity`);
  `double` fields (`threshold`, `resizeFactor`, `alpha()`) become `ℚ`
  (the program only ever compares these at exactly representable values).
* The `std::hash<std::string>` member becomes an explicit function field
  `hash : String → Nat`.
* The `mt19937` shuffle of `offsets.begin()+1 .. offsets.end()` in the
  constructor becomes a function field `shuffle : List Nat → Nat List`-like
  stand-in `shuffle : List Nat → List Nat`; theorems that depend on its
  contract assume it permutes its input, which is the contract of
  `std::ranges::shuffle`.
* Bucket pointers returned by `HashTable::find` become bucket indices
  (`Option Nat`); writing through a pointer becomes `List.set`.
-/

inductive BucketType
  | NORMAL
  | ESS
  | EAR
deriving DecidableEq, Repr

structure HashTableBucket where
  key : String
  value : Nat
  type : BucketType
deriving DecidableEq, Repr

/-- Default constructor `HashTableBucket()` : empty string, value 0, type ESS. -/
instance : Inhabited HashTableBucket :=
  ⟨⟨"", 0, BucketType.ESS⟩⟩

def HashTableBucket.getKey (b : HashTableBucket) : String := b.key

def HashTableBucket.getValue (b : HashTableBucket) : Nat := b.value

/-- `isEmpty`: `type != BucketType::NORMAL`. -/
def HashTableBucket.isEmpty (b : HashTableBucket) : Bool := b.type ≠ BucketType.NORMAL

/-- `isEAR`: `type == BucketType::EAR` (tombstone). -/
def HashTableBucket.isEAR (b : HashTableBucket) : Bool := b.type = BucketType.EAR

/-- `isESS`: `type == BucketType::ESS` (never filled). -/
def HashTableBucket.isESS (b : HashTableBucket) : Bool := b.type = BucketType.ESS

/-- `load`: overwrite key and value, mark NORMAL. -/
def HashTableBucket.load (_ : HashTableBucket) (inKey : String) (inValue : Nat) :
    HashTableBucket :=
  ⟨inKey, inValue, BucketType.NORMAL⟩

/-- `unload`: mark EAR, leaving key and value bytes in place. -/
def HashTableBucket.unload (b : HashTableBucket) : HashTableBucket :=
  { b with type := BucketType.EAR }

structure HashTable where
  threshold : ℚ
  resizeFactor : ℚ
  tableData : List HashTableBucket
  offsets : List Nat
  numFilled : Nat
  hash : String → Nat
  shuffle : List Nat → List Nat
  badKeyDrain : Nat

def HashTable.capacity (t : HashTable) : Nat := t.tableData.length

def HashTable.size (t : HashTable) : Nat := t.numFilled

def HashTable.alpha (t : HashTable) : ℚ := (t.size : ℚ) / (t.capacity : ℚ)

/-- `tableData.at(i)` (all accesses in the program are in bounds; out of
bounds reads fall back to the default bucket). -/
def getBucket (data : List HashTableBucket) (i : Nat) : HashTableBucket :=
  data.getD i default

/-- The probed slot for a given offset: `(home + offset) % capacity`. -/
def probeIdx (cap home o : Nat) : Nat := (home + o) % cap

/-- Constructor `HashTable(initCapacity, inThreshold, inResizeFactor)`:
`capacity` default buckets, `offsets[i] = i` with `offsets[1..]` shuffled,
`numFilled = 0`, `badKeyDrain = 0`. -/
def mkHashTable (hash : String → Nat) (shuffle : List Nat → List Nat)
    (initCapacity : Nat) (inThreshold : ℚ) (inResizeFactor : ℚ) : HashTable where
  threshold := inThreshold
  resizeFactor := inResizeFactor
  tableData := List.replicate initCapacity default
  offsets :=
    match List.range initCapacity with
    | [] => []
    | h :: t => h :: shuffle t
  numFilled := 0
  hash := hash
  shuffle := shuffle
  badKeyDrain := 0

/-- The probing loop of `HashTable::find`: stop with `none` at an ESS
bucket, skip EAR buckets, return the index of the bucket holding the key. -/
def findLoop (data : List HashTableBucket) (cap home : Nat) (key : String) :
    List Nat → Option Nat
  | [] => none
  | o :: rest =>
    let b := getBucket data (probeIdx cap home o)
    if b.isESS then none
    else if b.isEAR then findLoop data cap home key rest
    else if b.getKey = key then some (probeIdx cap home o)
    else findLoop data cap home key rest

/-- `HashTable::find` (pointer return modelled as the bucket's index). -/
def HashTable.find (t : HashTable) (key : String) : Option Nat :=
  findLoop t.tableData t.capacity (t.hash key % t.capacity) key t.offsets

/-- `HashTable::get`. -/
def HashTable.get (t : HashTable) (key : String) : Option Nat :=
  (t.find key).map fun i => (getBucket t.tableData i).getValue

/-- `HashTable::contains`. -/
def HashTable.contains (t : HashTable) (key : String) : Bool :=
  (t.find key).isSome

/-- The loop of `HashTable::keys`: collect keys of non-empty buckets in
index order, stopping once `numFilled` keys have been found. -/
def keysLoop (target : Nat) : List HashTableBucket → List String → List String
  | [], acc => acc
  | b :: rest, acc =>
    let acc' := if !b.isEmpty then acc ++ [b.getKey] else acc
    if acc'.length = target then acc' else keysLoop target rest acc'

/-- `HashTable::keys`. The C++ result vector is pre-sized to `numFilled`
entries initialised to `""`, so a shortfall is padded with `""`. -/
def HashTable.keys (t : HashTable) : List String :=
  let found := keysLoop t.numFilled t.tableData []
  found ++ List.replicate (t.numFilled - found.length) ""

/-- Reading `table[key]` (`operator[]`). -/
def HashTable.subscriptGet (t : HashTable) (key : String) : Nat :=
  match t.find key with
  | some i => (getBucket t.tableData i).getValue
  | none => t.badKeyDrain

/-- Writing `table[key] = v` through the reference `operator[]` returns:
a found bucket's value cell, or the `badKeyDrain` member. -/
def HashTable.subscriptSet (t : HashTable) (key : String) (v : Nat) : HashTable :=
  match t.find key with
  | some i =>
    { t with tableData := t.tableData.set i { getBucket t.tableData i with value := v } }
  | none => { t with badKeyDrain := v }

/-- Outcome of the probing loop of `HashTable::insert`: duplicate found,
slot chosen for placement, or table full with no reusable tombstone. -/
inductive ScanResult
  | dup
  | place (i : Nat)
  | full
deriving DecidableEq, Repr

/-- The probing loop of `HashTable::insert`, with the `firstEARFound`
accumulator: at an ESS bucket place into `firstEARFound` if set, else here;
at an EAR bucket record it if it is the first; fail on an equal key;
on exhaustion place into `firstEARFound` if set. -/
def insertScan (data : List HashTableBucket) (cap home : Nat) (key : String) :
    List Nat → Option Nat → ScanResult
  | [], firstEARFound =>
    match firstEARFound with
    | some i => ScanResult.place i
    | none => ScanResult.full
  | o :: rest, firstEARFound =>
    let b := getBucket data (probeIdx cap home o)
    if b.isEmpty then
      if b.isESS then ScanResult.place (firstEARFound.getD (probeIdx cap home o))
      else
        insertScan data cap home key rest
          (match firstEARFound with
           | none => some (probeIdx cap home o)
           | some e => some e)
    else if key = b.getKey then ScanResult.dup
    else insertScan data cap home key rest firstEARFound

/-- The probing loop of `HashTable::insertIntoNewTable`: place at the
first ESS bucket on the path. -/
def iintLoop (data : List HashTableBucket) (cap home : Nat) : List Nat → Option Nat
  | [] => none
  | o :: rest =>
    if (getBucket data (probeIdx cap home o)).isESS then some (probeIdx cap home o)
    else iintLoop data cap home rest

/-- `HashTable::insertIntoNewTable`. -/
def HashTable.insertIntoNewTable (t : HashTable) (key : String) (value : Nat) :
    Bool × HashTable :=
  match iintLoop t.tableData t.capacity (t.hash key % t.capacity) t.offsets with
  | some i =>
    (true,
      { t with
        tableData := t.tableData.set i ((getBucket t.tableData i).load key value)
        numFilled := t.numFilled + 1 })
  | none => (false, t)

/-- The loop of `HashTable::rehash`: reinsert every non-empty bucket of the
old table into the new table, stopping once the new table's fill count
matches the old one's. -/
def rehashLoop (target : Nat) : List HashTableBucket → HashTable → HashTable
  | [], newT => newT
  | b :: rest, newT =>
    let newT' := if !b.isEmpty then (newT.insertIntoNewTable b.getKey b.getValue).2 else newT
    if target = newT'.numFilled then newT' else rehashLoop target rest newT'

/-- `capacity() * resizeFactor` converted back to `size_t` (truncation of a
non-negative product is the floor). -/
def newCapacity (t : HashTable) : Nat := (((t.capacity : ℚ) * t.resizeFactor).floor).toNat

/-- `HashTable::rehash`: build a fresh table of the enlarged capacity with
its own offsets, reinsert all pairs, adopt its `tableData` and `offsets`.
The temporary table is built with the defaulted constructor arguments
(threshold 0.5, resize factor 2), which the reinsertion never consults. -/
def HashTable.rehash (t : HashTable) : HashTable :=
  let newT :=
    rehashLoop t.numFilled t.tableData
      (mkHashTable t.hash t.shuffle (newCapacity t) (1 / 2) 2)
  { t with tableData := newT.tableData, offsets := newT.offsets }

/-- `HashTable::insert`. -/
def HashTable.insert (t : HashTable) (key : String) (value : Nat) : Bool × HashTable :=
  match insertScan t.tableData t.capacity (t.hash key % t.capacity) key t.offsets none with
  | ScanResult.dup => (false, t)
  | ScanResult.full => (false, t)
  | ScanResult.place i =>
    let t' :=
      { t with
        tableData := t.tableData.set i ((getBucket t.tableData i).load key value)
        numFilled := t.numFilled + 1 }
    if t'.threshold ≤ t'.alpha then (true, t'.rehash) else (true, t')

/-- `HashTable::remove`. -/
def HashTable.remove (t : HashTable) (key : String) : Bool × HashTable :=
  match t.find key with
  | some i =>
    (true,
      { t with
        tableData := t.tableData.set i ((getBucket t.tableData i).unload)
        numFilled := t.numFilled - 1 })
  | none => (false, t)

/-- Outcome of the probing loop of `HashTable::insertTCT`, which also
counts probes. -/
inductive TCTScan
  | dupAt (probes : Nat)
  | placeAt (i : Nat) (probes : Nat)
  | exhausted (firstEARFound : Option Nat)
deriving DecidableEq, Repr

/-- The probing loop of `HashTable::insertTCT` (identical branch structure
to `insertScan`, plus the probe counter). -/
def insertScanTCT (data : List HashTableBucket) (cap home : Nat) (key : String) :
    List Nat → Option Nat → Nat → TCTScan
  | [], firstEARFound, _ => TCTScan.exhausted firstEARFound
  | o :: rest, firstEARFound, probeNum =>
    let b := getBucket data (probeIdx cap home o)
    if b.isEmpty then
      if b.isESS then TCTScan.placeAt (firstEARFound.getD (probeIdx cap home o)) (probeNum + 1)
      else
        insertScanTCT data cap home key rest
          (match firstEARFound with
           | none => some (probeIdx cap home o)
           | some e => some e)
          (probeNum + 1)
    else if key = b.getKey then TCTScan.dupAt (probeNum + 1)
    else insertScanTCT data cap home key rest firstEARFound (probeNum + 1)

/-- `HashTable::insertTCT`: like `insert` but it returns the probe count,
and it never checks the load factor (no rehash). -/
def HashTable.insertTCT (t : HashTable) (key : String) (value : Nat) : Nat × HashTable :=
  match insertScanTCT t.tableData t.capacity (t.hash key % t.capacity) key t.offsets none 0 with
  | TCTScan.dupAt probes => (probes, t)
  | TCTScan.placeAt i probes =>
    (probes,
      { t with
        tableData := t.tableData.set i ((getBucket t.tableData i).load key value)
        numFilled := t.numFilled + 1 })
  | TCTScan.exhausted (some i) =>
    (t.capacity,
      { t with
        tableData := t.tableData.set i ((getBucket t.tableData i).load key value)
        numFilled := t.numFilled + 1 })
  | TCTScan.exhausted none => (t.capacity, t)

/-- Projection of a TCT scan outcome onto the plain insert scan outcome. -/
def TCTScan.toScan : TCTScan → ScanResult
  | TCTScan.dupAt _ => ScanResult.dup
  | TCTScan.placeAt i _ => ScanResult.place i
  | TCTScan.exhausted (some i) => ScanResult.place i
  | TCTScan.exhausted none => ScanResult.full

/-! Specification-side definitions (following the claim texts, to be
compared against the code-side definitions above). -/

/-- Modelled from the spec text of claim C1: the first Tombstone (EAR)
slot on the probe path that is seen before any NeverUsed (ESS) slot. -/
def specFirstEARBeforeESS (data : List HashTableBucket) (cap home : Nat) :
    List Nat → Option Nat
  | [] => none
  | o :: rest =>
    let b := getBucket data (probeIdx cap home o)
    if b.isESS then none
    else if b.isEAR then some (probeIdx cap home o)
    else specFirstEARBeforeESS data cap home rest

/-- Modelled from the spec text of claim C1: the first NeverUsed (ESS)
slot on the probe path. -/
def specFirstESS (data : List HashTableBucket) (cap home : Nat) : List Nat → Option Nat
  | [] => none
  | o :: rest =>
    if (getBucket data (probeIdx cap home o)).isESS then some (probeIdx cap home o)
    else specFirstESS data cap home rest

/-- Modelled from the spec text of claim C1: place at the first Tombstone
seen before (or instead of) the first NeverUsed slot, else at the first
NeverUsed slot. -/
def specInsertSlot (data : List HashTableBucket) (cap home : Nat) (offs : List Nat) :
    Option Nat :=
  match specFirstEARBeforeESS data cap home offs with
  | some i => some i
  | none => specFirstESS data cap home offs

/-- The first empty (ESS or EAR) slot on the probe path. -/
def firstEmptyIdx (data : List HashTableBucket) (cap home : Nat) : List Nat → Option Nat
  | [] => none
  | o :: rest =>
    if (getBucket data (probeIdx cap home o)).isEmpty then some (probeIdx cap home o)
    else firstEmptyIdx data cap home rest

/-- Keys of the occupied buckets, in slot-index order. -/
def occKeys (data : List HashTableBucket) : List String :=
  (data.filter fun b => !b.isEmpty).map HashTableBucket.getKey

/-- Key-value pairs of the occupied buckets, in slot-index order. -/
def occPairs (data : List HashTableBucket) : List (String × Nat) :=
  (data.filter fun b => !b.isEmpty).map fun b => (b.getKey, b.getValue)

/-- Number of occupied buckets. -/
def countOcc (data : List HashTableBucket) : Nat :=
  (data.filter fun b => !b.isEmpty).length

/-- The reachable-state invariant of the table: positive capacity, the
fill counter agrees with the number of occupied buckets, occupied keys are
pairwise distinct, and every occupied bucket is located by `find` on its
own key. -/
def TableInv (t : HashTable) : Prop :=
  0 < t.capacity ∧
  t.numFilled = countOcc t.tableData ∧
  (occKeys t.tableData).Nodup ∧
  ∀ i, i < t.tableData.length → (getBucket t.tableData i).isEmpty = false →
    t.find ((getBucket t.tableData i).key) = some i

/-- Strengthened invariant for tables produced by the rehash reinsertion:
additionally no tombstones, and the offsets are a permutation of
`0 .. capacity-1`. -/
def CleanInv (t : HashTable) : Prop :=
  TableInv t ∧
  (∀ i, (getBucket t.tableData i).isEAR = false) ∧
  t.offsets.Perm (List.range t.capacity)

/-- Full well-formedness carried through operation sequences. -/
def Good (t : HashTable) : Prop :=
  TableInv t ∧
  t.offsets.Perm (List.range t.capacity) ∧
  (∀ l, (t.shuffle l).Perm l) ∧
  1 ≤ t.resizeFactor

/-- Operations of claim C3's operation sequences. -/
inductive TableOp
  | ins (key : String) (value : Nat)
  | rem (key : String)

/-- Run a sequence of insert/remove operations. -/
def runOps (t : HashTable) : List TableOp → HashTable
  | [] => t
  | op :: rest =>
    runOps
      (match op with
       | TableOp.ins k v => (t.insert k v).2
       | TableOp.rem k => (t.remove k).2)
      rest

/-! Basic facts about buckets and raw accesses. -/

theorem bucket_isESS_iff (b : HashTableBucket) : b.isESS = true ↔ b.type = BucketType.ESS := by
  simp [HashTableBucket.isESS]

theorem bucket_isEAR_iff (b : HashTableBucket) : b.isEAR = true ↔ b.type = BucketType.EAR := by
  simp [HashTableBucket.isEAR]

theorem bucket_isEmpty_iff (b : HashTableBucket) : b.isEmpty = true ↔ b.type ≠ BucketType.NORMAL := by
  simp [HashTableBucket.isEmpty]

theorem bucket_isEmpty_false_iff (b : HashTableBucket) :
    b.isEmpty = false ↔ b.type = BucketType.NORMAL := by
  simp [HashTableBucket.isEmpty]

theorem isEmpty_false_of (b : HashTableBucket) (h1 : b.isESS = false) (h2 : b.isEAR = false) :
    b.isEmpty = false := by
  rw [bucket_isEmpty_false_iff]
  cases htyp : b.type
  · rfl
  · rw [← bucket_isESS_iff b] at htyp; rw [htyp] at h1; cases h1
  · rw [← bucket_isEAR_iff b] at htyp; rw [htyp] at h2; cases h2

theorem isESS_false_of_isEmpty_false (b : HashTableBucket) (h : b.isEmpty = false) :
    b.isESS = false := by
  rw [bucket_isEmpty_false_iff] at h
  simp [HashTableBucket.isESS, h]

theorem isEAR_false_of_isEmpty_false (b : HashTableBucket) (h : b.isEmpty = false) :
    b.isEAR = false := by
  rw [bucket_isEmpty_false_iff] at h
  simp [HashTableBucket.isEAR, h]

theorem isEmpty_true_of_isESS (b : HashTableBucket) (h : b.isESS = true) :
    b.isEmpty = true := by
  rw [bucket_isESS_iff] at h
  simp [HashTableBucket.isEmpty, h]

theorem isEmpty_true_of_isEAR (b : HashTableBucket) (h : b.isEAR = true) :
    b.isEmpty = true := by
  rw [bucket_isEAR_iff] at h
  simp [HashTableBucket.isEmpty, h]

theorem getBucket_set_self (data : List HashTableBucket) (i : Nat) (b : HashTableBucket)
    (h : i < data.length) : getBucket (data.set i b) i = b := by
  simp [getBucket, List.getD_eq_getElem?_getD, List.getElem?_set_self h]

theorem getBucket_set_ne (data : List HashTableBucket) (i j : Nat) (b : HashTableBucket)
    (h : i ≠ j) : getBucket (data.set i b) j = getBucket data j := by
  simp [getBucket, List.getD_eq_getElem?_getD, List.getElem?_set_ne h]

theorem getBucket_replicate (n i : Nat) :
    getBucket (List.replicate n (default : HashTableBucket)) i = default := by
  simp only [getBucket, List.getD_eq_getElem?_getD, List.getElem?_replicate]
  split <;> rfl

theorem getBucket_mem (data : List HashTableBucket) (i : Nat) (h : i < data.length) :
    getBucket data i ∈ data := by
  simp only [getBucket, List.getD_eq_getElem?_getD, List.getElem?_eq_getElem h, Option.getD_some]
  exact List.getElem_mem h

theorem getBucket_default_of_ge (data : List HashTableBucket) (i : Nat)
    (h : data.length ≤ i) : getBucket data i = default := by
  simp [getBucket, List.getD_eq_getElem?_getD, List.getElem?_eq_none h]

theorem probeIdx_lt (cap home o : Nat) (h : 0 < cap) : probeIdx cap home o < cap :=
  Nat.mod_lt _ h

/-! Characterisation of the `find` probing loop. -/

theorem findLoop_spec (data : List HashTableBucket) (cap home : Nat) (key : String)
    (hcap : cap = data.length) :
    ∀ offs i, findLoop data cap home key offs = some i →
      i < cap ∧ (getBucket data i).isEmpty = false ∧ (getBucket data i).key = key := by
  intro offs
  induction offs with
  | nil => intro i h; simp [findLoop] at h
  | cons o rest ih =>
    intro i h
    rw [findLoop] at h
    by_cases h1 : (getBucket data (probeIdx cap home o)).isESS = true
    · simp [h1] at h
    · rw [Bool.not_eq_true] at h1
      by_cases h2 : (getBucket data (probeIdx cap home o)).isEAR = true
      · simp [h1, h2] at h
        exact ih i h
      · rw [Bool.not_eq_true] at h2
        by_cases h3 : (getBucket data (probeIdx cap home o)).getKey = key
        · simp [h1, h2, h3] at h
          have hcap0 : 0 < cap := by
            rcases Nat.eq_zero_or_pos cap with hz | hp
            · exfalso
              have hd : data = [] := List.length_eq_zero.mp (hcap.symm.trans hz)
              rw [hd, getBucket_default_of_ge [] _ (by simp)] at h1
              rw [show (default : HashTableBucket).isESS = true from rfl] at h1
              exact absurd h1 (by decide)
            · exact hp
          refine ⟨h ▸ probeIdx_lt cap home o hcap0, ?_, ?_⟩
          · rw [← h]; exact isEmpty_false_of _ h1 h2
          · rw [← h]; exact h3
        · simp [h1, h2, h3] at h
          exact ih i h

theorem findLoop_none_of_no_key (data : List HashTableBucket) (cap home : Nat) (key : String)
    (h : ∀ j, (getBucket data j).isEmpty = false → (getBucket data j).key ≠ key) :
    ∀ offs, findLoop data cap home key offs = none := by
  intro offs
  induction offs with
  | nil => rfl
  | cons o rest ih =>
    rw [findLoop]
    by_cases h1 : (getBucket data (probeIdx cap home o)).isESS = true
    · simp [h1]
    · rw [Bool.not_eq_true] at h1
      by_cases h2 : (getBucket data (probeIdx cap home o)).isEAR = true
      · simp [h1, h2]; exact ih
      · rw [Bool.not_eq_true] at h2
        have hocc : (getBucket data (probeIdx cap home o)).isEmpty = false :=
          isEmpty_false_of _ h1 h2
        have h3 : ¬ (getBucket data (probeIdx cap home o)).getKey = key :=
          h (probeIdx cap home o) hocc
        simp [h1, h2, h3]
        exact ih

/-! The insert probing loop versus `find`. -/

theorem insertScan_nil (data : List HashTableBucket) (cap home : Nat) (key : String)
    (acc : Option Nat) :
    insertScan data cap home key [] acc =
      match acc with
      | some i => ScanResult.place i
      | none => ScanResult.full := rfl

theorem insertScan_cons (data : List HashTableBucket) (cap home : Nat) (key : String)
    (o : Nat) (rest : List Nat) (acc : Option Nat) :
    insertScan data cap home key (o :: rest) acc =
      (if (getBucket data (probeIdx cap home o)).isEmpty then
        if (getBucket data (probeIdx cap home o)).isESS then
          ScanResult.place (acc.getD (probeIdx cap home o))
        else
          insertScan data cap home key rest
            (match acc with
             | none => some (probeIdx cap home o)
             | some e => some e)
      else if key = (getBucket data (probeIdx cap home o)).getKey then ScanResult.dup
      else insertScan data cap home key rest acc) := rfl

theorem insertScan_dup_of_found (data : List HashTableBucket) (cap home : Nat) (key : String) :
    ∀ offs acc i, findLoop data cap home key offs = some i →
      insertScan data cap home key offs acc = ScanResult.dup := by
  intro offs
  induction offs with
  | nil => intro acc i h; simp [findLoop] at h
  | cons o rest ih =>
    intro acc i h
    rw [findLoop] at h
    rw [insertScan_cons]
    by_cases h1 : (getBucket data (probeIdx cap home o)).isESS = true
    · simp [h1] at h
    · rw [Bool.not_eq_true] at h1
      by_cases h2 : (getBucket data (probeIdx cap home o)).isEAR = true
      · have he : (getBucket data (probeIdx cap home o)).isEmpty = true :=
          isEmpty_true_of_isEAR _ h2
        simp only [h1, h2, if_false, if_true] at h
        simp only [he, h1, if_true, if_false]
        exact ih _ i h
      · rw [Bool.not_eq_true] at h2
        have hocc : (getBucket data (probeIdx cap home o)).isEmpty = false :=
          isEmpty_false_of _ h1 h2
        by_cases h3 : (getBucket data (probeIdx cap home o)).getKey = key
        · simp [hocc, h3.symm]
        · simp only [h1, h2, h3, if_false] at h
          simp only [hocc, Bool.false_eq_true, if_false]
          rw [if_neg (fun hk => h3 hk.symm)]
          exact ih _ i h

theorem insertScan_of_find_none (data : List HashTableBucket) (cap home : Nat) (key : String) :
    ∀ offs acc, findLoop data cap home key offs = none →
      insertScan data cap home key offs acc =
        match acc with
        | some e => ScanResult.place e
        | none =>
          match firstEmptyIdx data cap home offs with
          | some c => ScanResult.place c
          | none => ScanResult.full := by
  intro offs
  induction offs with
  | nil => intro acc h; cases acc <;> rfl
  | cons o rest ih =>
    intro acc h
    rw [findLoop] at h
    rw [insertScan_cons]
    by_cases h1 : (getBucket data (probeIdx cap home o)).isESS = true
    · have he : (getBucket data (probeIdx cap home o)).isEmpty = true :=
        isEmpty_true_of_isESS _ h1
      simp only [he, h1, if_true]
      cases acc with
      | some e => simp [firstEmptyIdx, he]
      | none => simp [firstEmptyIdx, he]
    · rw [Bool.not_eq_true] at h1
      by_cases h2 : (getBucket data (probeIdx cap home o)).isEAR = true
      · have he : (getBucket data (probeIdx cap home o)).isEmpty = true :=
          isEmpty_true_of_isEAR _ h2
        simp only [h1, h2, if_true, if_false] at h
        simp only [he, h1, if_true, Bool.false_eq_true, if_false]
        cases acc with
        | some e => exact ih (some e) h
        | none =>
          rw [ih (some (probeIdx cap home o)) h]
          simp [firstEmptyIdx, he]
      · rw [Bool.not_eq_true] at h2
        have hocc : (getBucket data (probeIdx cap home o)).isEmpty = false :=
          isEmpty_false_of _ h1 h2
        by_cases h3 : (getBucket data (probeIdx cap home o)).getKey = key
        · simp [h1, h2, h3] at h
        · simp only [h1, h2, h3, if_false] at h
          simp only [hocc, Bool.false_eq_true, if_false]
          rw [if_neg (fun hk => h3 hk.symm)]
          rw [ih acc h]
          cases acc with
          | some e => rfl
          | none => simp [firstEmptyIdx, hocc]

/-! The first empty slot on a probe path. -/

theorem firstEmptyIdx_spec (data : List HashTableBucket) (cap home : Nat) :
    ∀ offs c, firstEmptyIdx data cap home offs = some c →
      (getBucket data c).isEmpty = true ∧ (0 < cap → c < cap) ∧
      ∃ pre o post, offs = pre ++ o :: post ∧ probeIdx cap home o = c ∧
        ∀ o' ∈ pre, (getBucket data (probeIdx cap home o')).isEmpty = false := by
  intro offs
  induction offs with
  | nil => intro c h; simp [firstEmptyIdx] at h
  | cons o rest ih =>
    intro c h
    rw [firstEmptyIdx] at h
    by_cases h1 : (getBucket data (probeIdx cap home o)).isEmpty = true
    · rw [if_pos h1, Option.some_inj] at h
      subst h
      exact ⟨h1, fun hc => probeIdx_lt cap home o hc,
        [], o, rest, rfl, rfl, fun o' ho' => absurd ho' (List.not_mem_nil o')⟩
    · rw [if_neg h1] at h
      obtain ⟨hemp, hlt, pre, o1, post, hsplit, hidx, hpre⟩ := ih c h
      refine ⟨hemp, hlt, o :: pre, o1, post, by rw [hsplit]; rfl, hidx, ?_⟩
      intro o' ho'
      rcases List.mem_cons.mp ho' with h' | h'
      · subst h'; exact Bool.not_eq_true _ ▸ h1
      · exact hpre o' h'

theorem firstEmptyIdx_isSome (data : List HashTableBucket) (cap home : Nat) :
    ∀ offs, (∃ o ∈ offs, (getBucket data (probeIdx cap home o)).isEmpty = true) →
      ∃ c, firstEmptyIdx data cap home offs = some c := by
  intro offs
  induction offs with
  | nil => intro h; obtain ⟨o, ho, _⟩ := h; exact absurd ho (List.not_mem_nil o)
  | cons o rest ih =>
    intro h
    rw [firstEmptyIdx]
    by_cases h1 : (getBucket data (probeIdx cap home o)).isEmpty = true
    · exact ⟨probeIdx cap home o, if_pos h1⟩
    · rw [if_neg h1]
      obtain ⟨o', ho', hemp⟩ := h
      rcases List.mem_cons.mp ho' with h' | h'
      · subst h'; exact absurd hemp h1
      · exact ih ⟨o', h', hemp⟩

theorem specInsertSlot_eq_firstEmptyIdx (data : List HashTableBucket) (cap home : Nat) :
    ∀ offs, specInsertSlot data cap home offs = firstEmptyIdx data cap home offs := by
  intro offs
  induction offs with
  | nil => rfl
  | cons o rest ih =>
    rw [specInsertSlot, specFirstEARBeforeESS]
    by_cases h1 : (getBucket data (probeIdx cap home o)).isESS = true
    · have he : (getBucket data (probeIdx cap home o)).isEmpty = true :=
        isEmpty_true_of_isESS _ h1
      simp [h1, specFirstESS, firstEmptyIdx, he]
    · rw [Bool.not_eq_true] at h1
      by_cases h2 : (getBucket data (probeIdx cap home o)).isEAR = true
      · have he : (getBucket data (probeIdx cap home o)).isEmpty = true :=
          isEmpty_true_of_isEAR _ h2
        simp [h1, h2, firstEmptyIdx, he]
      · rw [Bool.not_eq_true] at h2
        have hocc : (getBucket data (probeIdx cap home o)).isEmpty = false :=
          isEmpty_false_of _ h1 h2
        have hss : specFirstESS data cap home (o :: rest) = specFirstESS data cap home rest := by
          rw [specFirstESS, if_neg (by rw [h1]; exact Bool.false_ne_true)]
        simp only [h1, h2, Bool.false_eq_true, if_false, firstEmptyIdx, hocc]
        rw [← ih, specInsertSlot, hss]

/-! Locating a key after a placement, and stability of `find` under
modifications of other slots. -/

theorem findLoop_place (data2 : List HashTableBucket) (cap home c : Nat) (key : String)
    (v : Nat) (hc : getBucket data2 c = ⟨key, v, BucketType.NORMAL⟩) :
    ∀ pre o post, probeIdx cap home o = c →
      (∀ o' ∈ pre, (getBucket data2 (probeIdx cap home o')).isEmpty = false ∧
        (getBucket data2 (probeIdx cap home o')).key ≠ key) →
      findLoop data2 cap home key (pre ++ o :: post) = some c := by
  intro pre
  induction pre with
  | nil =>
    intro o post ho _
    rw [List.nil_append, findLoop, ho, hc]
    simp [HashTableBucket.isESS, HashTableBucket.isEAR, HashTableBucket.getKey]
  | cons o' pre' ih =>
    intro o post ho hpre
    obtain ⟨hocc, hkey⟩ := hpre o' (List.mem_cons_self o' pre')
    rw [List.cons_append, findLoop]
    rw [isESS_false_of_isEmpty_false _ hocc, isEAR_false_of_isEmpty_false _ hocc]
    simp only [Bool.false_eq_true, if_false]
    rw [if_neg (by exact hkey)]
    exact ih o post ho fun x hx => hpre x (List.mem_cons_of_mem o' hx)

theorem findLoop_set_other (data : List HashTableBucket) (cap home : Nat) (key : String)
    (c : Nat) (newb : HashTableBucket) (hc : c < data.length)
    (hcold : (getBucket data c).key = key → (getBucket data c).isEmpty = true)
    (h1 : newb.isESS = false)
    (h2 : newb.type = BucketType.NORMAL → newb.key ≠ key) :
    ∀ offs j, findLoop data cap home key offs = some j →
      findLoop (data.set c newb) cap home key offs = some j := by
  intro offs
  induction offs with
  | nil => intro j h; simp [findLoop] at h
  | cons o rest ih =>
    intro j h
    rw [findLoop] at h
    rw [findLoop]
    by_cases hco : probeIdx cap home o = c
    · -- the modified slot: the original walk did not stop here
      rw [hco, getBucket_set_self data c newb hc]
      rw [hco] at h
      by_cases hESS : (getBucket data c).isESS = true
      · rw [if_pos hESS] at h; cases h
      · rw [if_neg hESS] at h
        rw [h1]
        simp only [Bool.false_eq_true, if_false]
        by_cases hEAR : (getBucket data c).isEAR = true
        · -- original bucket was a tombstone: skipped; new bucket must not match
          rw [if_pos hEAR] at h
          by_cases hnew : newb.isEAR = true
          · rw [if_pos hnew]; exact ih j h
          · rw [if_neg hnew]
            have hnorm : newb.type = BucketType.NORMAL :=
              bucket_isEmpty_false_iff newb |>.mp
                (isEmpty_false_of newb h1 (Bool.not_eq_true _ ▸ hnew))
            rw [if_neg (show ¬(newb.getKey = key) from fun hk => h2 hnorm hk)]
            exact ih j h
        · -- original bucket occupied: its key cannot have matched
          rw [if_neg hEAR] at h
          have hocc : (getBucket data c).isEmpty = false :=
            isEmpty_false_of _ (Bool.not_eq_true _ ▸ hESS) (Bool.not_eq_true _ ▸ hEAR)
          by_cases hk : (getBucket data c).getKey = key
          · exact absurd (hcold hk) (by rw [hocc]; exact Bool.false_ne_true)
          · rw [if_neg hk] at h
            by_cases hnew : newb.isEAR = true
            · rw [if_pos hnew]; exact ih j h
            · rw [if_neg hnew]
              have hnorm : newb.type = BucketType.NORMAL :=
                bucket_isEmpty_false_iff newb |>.mp
                  (isEmpty_false_of newb h1 (Bool.not_eq_true _ ▸ hnew))
              rw [if_neg (show ¬(newb.getKey = key) from fun hk2 => h2 hnorm hk2)]
              exact ih j h
    · rw [getBucket_set_ne data c (probeIdx cap home o) newb fun he => hco he.symm]
      by_cases hESS : (getBucket data (probeIdx cap home o)).isESS = true
      · rw [if_pos hESS] at h; cases h
      · rw [if_neg hESS] at h; rw [if_neg hESS]
        by_cases hEAR : (getBucket data (probeIdx cap home o)).isEAR = true
        · rw [if_pos hEAR] at h; rw [if_pos hEAR]; exact ih j h
        · rw [if_neg hEAR] at h; rw [if_neg hEAR]
          by_cases hk : (getBucket data (probeIdx cap home o)).getKey = key
          · rw [if_pos hk] at h; rw [if_pos hk]; exact h
          · rw [if_neg hk] at h; rw [if_neg hk]; exact ih j h

theorem findLoop_keys_ne_of_none (data : List HashTableBucket) (cap home : Nat) (key : String) :
    ∀ pre rest, findLoop data cap home key (pre ++ rest) = none →
      (∀ o' ∈ pre, (getBucket data (probeIdx cap home o')).isEmpty = false) →
      ∀ o' ∈ pre, (getBucket data (probeIdx cap home o')).key ≠ key := by
  intro pre
  induction pre with
  | nil => intro rest _ _ o' ho'; exact absurd ho' (List.not_mem_nil o')
  | cons o pre' ih =>
    intro rest h hocc o' ho'
    rw [List.cons_append, findLoop] at h
    have ho : (getBucket data (probeIdx cap home o)).isEmpty = false :=
      hocc o (List.mem_cons_self o pre')
    rw [isESS_false_of_isEmpty_false _ ho, isEAR_false_of_isEmpty_false _ ho] at h
    simp only [Bool.false_eq_true, if_false] at h
    by_cases hk : (getBucket data (probeIdx cap home o)).getKey = key
    · rw [if_pos hk] at h; cases h
    · rw [if_neg hk] at h
      rcases List.mem_cons.mp ho' with h' | h'
      · subst h'; exact hk
      · exact ih rest h (fun x hx => hocc x (List.mem_cons_of_mem o hx)) o' h'

theorem findLoop_congr_typekey (data data2 : List HashTableBucket) (cap home : Nat)
    (key : String)
    (h : ∀ j, (getBucket data2 j).type = (getBucket data j).type ∧
      (getBucket data2 j).key = (getBucket data j).key) :
    ∀ offs, findLoop data2 cap home key offs = findLoop data cap home key offs := by
  intro offs
  induction offs with
  | nil => rfl
  | cons o rest ih =>
    rw [findLoop, findLoop]
    obtain ⟨ht, hk⟩ := h (probeIdx cap home o)
    rw [show (getBucket data2 (probeIdx cap home o)).isESS =
        (getBucket data (probeIdx cap home o)).isESS by
      simp [HashTableBucket.isESS, ht]]
    rw [show (getBucket data2 (probeIdx cap home o)).isEAR =
        (getBucket data (probeIdx cap home o)).isEAR by
      simp [HashTableBucket.isEAR, ht]]
    rw [show (getBucket data2 (probeIdx cap home o)).getKey =
        (getBucket data (probeIdx cap home o)).getKey by
      simp [HashTableBucket.getKey, hk]]
    rw [ih]

/-! Occupancy bookkeeping: `countOcc`, `occKeys`, `occPairs`. -/

theorem occKeys_eq_map_fst (data : List HashTableBucket) :
    occKeys data = (occPairs data).map Prod.fst := by
  simp [occKeys, occPairs, List.map_map]

theorem length_occKeys (data : List HashTableBucket) :
    (occKeys data).length = countOcc data := by
  simp [occKeys, countOcc]

theorem length_occPairs (data : List HashTableBucket) :
    (occPairs data).length = countOcc data := by
  simp [occPairs, countOcc]

theorem countOcc_le_length (data : List HashTableBucket) :
    countOcc data ≤ data.length :=
  List.length_filter_le _ data

theorem mem_occPairs_of (data : List HashTableBucket) (j : Nat) (hj : j < data.length)
    (hocc : (getBucket data j).isEmpty = false) :
    ((getBucket data j).getKey, (getBucket data j).getValue) ∈ occPairs data :=
  List.mem_map_of_mem _ (List.mem_filter.mpr ⟨getBucket_mem data j hj, by simp [hocc]⟩)

theorem mem_occKeys_of (data : List HashTableBucket) (j : Nat) (hj : j < data.length)
    (hocc : (getBucket data j).isEmpty = false) :
    (getBucket data j).getKey ∈ occKeys data :=
  List.mem_map_of_mem _ (List.mem_filter.mpr ⟨getBucket_mem data j hj, by simp [hocc]⟩)

theorem occPairs_elim (data : List HashTableBucket) (p : String × Nat)
    (h : p ∈ occPairs data) :
    ∃ j, j < data.length ∧ (getBucket data j).isEmpty = false ∧
      (getBucket data j).getKey = p.1 ∧ (getBucket data j).getValue = p.2 := by
  obtain ⟨b, hb, hbp⟩ := List.mem_map.mp h
  obtain ⟨hbd, hbo⟩ := List.mem_filter.mp hb
  obtain ⟨j, hj, hbj⟩ := List.mem_iff_getElem.mp hbd
  refine ⟨j, hj, ?_, ?_, ?_⟩ <;>
    rw [show getBucket data j = b by
      simp [getBucket, List.getD_eq_getElem?_getD, List.getElem?_eq_getElem hj, hbj]]
  · simpa using hbo
  · rw [← hbp]
  · rw [← hbp]

theorem occKeys_elim (data : List HashTableBucket) (k : String)
    (h : k ∈ occKeys data) :
    ∃ j, j < data.length ∧ (getBucket data j).isEmpty = false ∧
      (getBucket data j).getKey = k := by
  obtain ⟨b, hb, hbp⟩ := List.mem_map.mp h
  obtain ⟨hbd, hbo⟩ := List.mem_filter.mp hb
  obtain ⟨j, hj, hbj⟩ := List.mem_iff_getElem.mp hbd
  refine ⟨j, hj, ?_, ?_⟩ <;>
    rw [show getBucket data j = b by
      simp [getBucket, List.getD_eq_getElem?_getD, List.getElem?_eq_getElem hj, hbj]]
  · simpa using hbo
  · exact hbp

theorem countOcc_cons_occ (d : HashTableBucket) (l : List HashTableBucket)
    (hd : d.isEmpty = false) : countOcc (d :: l) = countOcc l + 1 := by
  simp [countOcc, List.filter_cons, hd]

theorem countOcc_cons_emp (d : HashTableBucket) (l : List HashTableBucket)
    (hd : d.isEmpty = true) : countOcc (d :: l) = countOcc l := by
  simp [countOcc, List.filter_cons, hd]

theorem occPairs_cons_occ (d : HashTableBucket) (l : List HashTableBucket)
    (hd : d.isEmpty = false) :
    occPairs (d :: l) = (d.getKey, d.getValue) :: occPairs l := by
  simp [occPairs, List.filter_cons, hd]

theorem occPairs_cons_emp (d : HashTableBucket) (l : List HashTableBucket)
    (hd : d.isEmpty = true) : occPairs (d :: l) = occPairs l := by
  simp [occPairs, List.filter_cons, hd]

theorem occKeys_cons_occ (d : HashTableBucket) (l : List HashTableBucket)
    (hd : d.isEmpty = false) : occKeys (d :: l) = d.getKey :: occKeys l := by
  simp [occKeys, List.filter_cons, hd]

theorem occKeys_cons_emp (d : HashTableBucket) (l : List HashTableBucket)
    (hd : d.isEmpty = true) : occKeys (d :: l) = occKeys l := by
  simp [occKeys, List.filter_cons, hd]

theorem occ_set_load (b : HashTableBucket) (hb : b.isEmpty = false) :
    ∀ (data : List HashTableBucket) (i : Nat), i < data.length →
      (getBucket data i).isEmpty = true →
      countOcc (data.set i b) = countOcc data + 1 ∧
      (occPairs (data.set i b)).Perm ((b.getKey, b.getValue) :: occPairs data) ∧
      (occKeys (data.set i b)).Perm (b.getKey :: occKeys data) := by
  intro data
  induction data with
  | nil => intro i hi; simp at hi
  | cons d rest ih =>
    intro i hi hemp
    cases i with
    | zero =>
      have hd : d.isEmpty = true := by simpa [getBucket] using hemp
      simp only [List.set_cons_zero]
      rw [countOcc_cons_occ b rest hb, countOcc_cons_emp d rest hd,
        occPairs_cons_occ b rest hb, occPairs_cons_emp d rest hd,
        occKeys_cons_occ b rest hb, occKeys_cons_emp d rest hd]
      exact ⟨rfl, List.Perm.refl _, List.Perm.refl _⟩
    | succ j =>
      have hj : j < rest.length := by simpa using hi
      have hemp' : (getBucket rest j).isEmpty = true := by
        simpa [getBucket, List.getD_eq_getElem?_getD] using hemp
      obtain ⟨hcnt, hpairs, hkeys⟩ := ih j hj hemp'
      simp only [List.set_cons_succ]
      by_cases hd : d.isEmpty = true
      · rw [countOcc_cons_emp d _ hd, countOcc_cons_emp d rest hd,
          occPairs_cons_emp d _ hd, occPairs_cons_emp d rest hd,
          occKeys_cons_emp d _ hd, occKeys_cons_emp d rest hd]
        exact ⟨hcnt, hpairs, hkeys⟩
      · rw [Bool.not_eq_true] at hd
        rw [countOcc_cons_occ d _ hd, countOcc_cons_occ d rest hd,
          occPairs_cons_occ d _ hd, occPairs_cons_occ d rest hd,
          occKeys_cons_occ d _ hd, occKeys_cons_occ d rest hd]
        refine ⟨by omega, ?_, ?_⟩
        · exact (List.Perm.cons _ hpairs).trans (List.Perm.swap _ _ _)
        · exact (List.Perm.cons _ hkeys).trans (List.Perm.swap _ _ _)

theorem occ_set_unload :
    ∀ (data : List HashTableBucket) (i : Nat), i < data.length →
      (getBucket data i).isEmpty = false →
      countOcc (data.set i ((getBucket data i).unload)) + 1 = countOcc data ∧
      (occKeys (data.set i ((getBucket data i).unload))).Sublist (occKeys data) ∧
      (occPairs (data.set i ((getBucket data i).unload))).Sublist (occPairs data) := by
  intro data
  induction data with
  | nil => intro i hi; simp at hi
  | cons d rest ih =>
    intro i hi hocc
    cases i with
    | zero =>
      have hd0 : getBucket (d :: rest) 0 = d := by simp [getBucket]
      rw [hd0] at hocc ⊢
      have hu : d.unload.isEmpty = true := by
        simp [HashTableBucket.unload, HashTableBucket.isEmpty]
      simp only [List.set_cons_zero]
      rw [countOcc_cons_emp _ rest hu, countOcc_cons_occ d rest hocc,
        occKeys_cons_emp _ rest hu, occKeys_cons_occ d rest hocc,
        occPairs_cons_emp _ rest hu, occPairs_cons_occ d rest hocc]
      exact ⟨rfl, List.sublist_cons_self _ _, List.sublist_cons_self _ _⟩
    | succ j =>
      have hj : j < rest.length := by simpa using hi
      have hgb : getBucket (d :: rest) (j + 1) = getBucket rest j := by
        simp [getBucket, List.getD_eq_getElem?_getD]
      rw [hgb] at hocc ⊢
      obtain ⟨hcnt, hkeys, hpairs⟩ := ih j hj hocc
      simp only [List.set_cons_succ]
      by_cases hd : d.isEmpty = true
      · rw [countOcc_cons_emp d _ hd, countOcc_cons_emp d rest hd,
          occKeys_cons_emp d _ hd, occKeys_cons_emp d rest hd,
          occPairs_cons_emp d _ hd, occPairs_cons_emp d rest hd]
        exact ⟨hcnt, hkeys, hpairs⟩
      · rw [Bool.not_eq_true] at hd
        rw [countOcc_cons_occ d _ hd, countOcc_cons_occ d rest hd,
          occKeys_cons_occ d _ hd, occKeys_cons_occ d rest hd,
          occPairs_cons_occ d _ hd, occPairs_cons_occ d rest hd]
        exact ⟨by omega, List.Sublist.cons₂ _ hkeys, List.Sublist.cons₂ _ hpairs⟩

/-! The `keys` loop. -/

theorem getKey_eq (b : HashTableBucket) : b.getKey = b.key := rfl

theorem keysLoop_nil (target : Nat) (acc : List String) :
    keysLoop target [] acc = acc := rfl

theorem keysLoop_cons (target : Nat) (b : HashTableBucket) (rest : List HashTableBucket)
    (acc : List String) :
    keysLoop target (b :: rest) acc =
      (if (if !b.isEmpty then acc ++ [b.getKey] else acc).length = target
       then (if !b.isEmpty then acc ++ [b.getKey] else acc)
       else keysLoop target rest (if !b.isEmpty then acc ++ [b.getKey] else acc)) := rfl

theorem keysLoop_spec :
    ∀ (data : List HashTableBucket) (acc : List String),
      keysLoop (acc.length + countOcc data) data acc = acc ++ occKeys data := by
  intro data
  induction data with
  | nil => intro acc; simp [keysLoop_nil, occKeys]
  | cons b rest ih =>
    intro acc
    rw [keysLoop_cons]
    by_cases hb : b.isEmpty = true
    · rw [countOcc_cons_emp b rest hb, occKeys_cons_emp b rest hb]
      rw [hb]
      simp only [Bool.not_true, Bool.false_eq_true, if_false]
      by_cases h0 : countOcc rest = 0
      · rw [if_pos (by omega)]
        have : occKeys rest = [] :=
          List.eq_nil_of_length_eq_zero ((length_occKeys rest).trans h0)
        rw [this, List.append_nil]
      · rw [if_neg (by omega)]
        exact ih acc
    · rw [Bool.not_eq_true] at hb
      rw [countOcc_cons_occ b rest hb, occKeys_cons_occ b rest hb]
      rw [hb]
      simp only [Bool.not_false, if_true, List.length_append, List.length_singleton]
      by_cases h0 : countOcc rest = 0
      · rw [if_pos (by omega)]
        have : occKeys rest = [] :=
          List.eq_nil_of_length_eq_zero ((length_occKeys rest).trans h0)
        rw [this]
      · rw [if_neg (by omega)]
        have htar : acc.length + (countOcc rest + 1) = (acc ++ [b.getKey]).length + countOcc rest := by
          simp; omega
        rw [htar, ih (acc ++ [b.getKey])]
        simp

theorem keys_eq_occKeys (t : HashTable) (h : t.numFilled = countOcc t.tableData) :
    t.keys = occKeys t.tableData := by
  have hfound : keysLoop t.numFilled t.tableData [] = occKeys t.tableData := by
    have h2 := keysLoop_spec t.tableData []
    rw [List.length_nil, Nat.zero_add, List.nil_append] at h2
    rw [h, h2]
  simp only [HashTable.keys]
  rw [hfound, show t.numFilled - (occKeys t.tableData).length = 0 by
    rw [length_occKeys, h]; omega]
  simp

/-! Consequences of the table invariant. -/

theorem find_some_iff_of_inv (t : HashTable) (hInv : TableInv t) (k : String) (i : Nat) :
    t.find k = some i ↔
      i < t.tableData.length ∧ (getBucket t.tableData i).isEmpty = false ∧
        (getBucket t.tableData i).key = k := by
  obtain ⟨hcap, hfill, hnd, hfind⟩ := hInv
  constructor
  · intro h
    exact findLoop_spec t.tableData t.capacity (t.hash k % t.capacity) k rfl t.offsets i h
  · rintro ⟨hi, hocc, hkey⟩
    have := hfind i hi hocc
    rwa [hkey] at this

theorem get_eq_some_iff_of_inv (t : HashTable) (hInv : TableInv t) (k : String) (v : Nat) :
    t.get k = some v ↔ (k, v) ∈ occPairs t.tableData := by
  constructor
  · intro h
    rw [HashTable.get] at h
    obtain ⟨i, hfi, hval⟩ : ∃ i, t.find k = some i ∧ (getBucket t.tableData i).getValue = v := by
      cases hf : t.find k with
      | none => rw [hf] at h; cases h
      | some i =>
        rw [hf] at h
        exact ⟨i, rfl, by simpa using h⟩
    obtain ⟨hi, hocc, hkey⟩ := (find_some_iff_of_inv t hInv k i).mp hfi
    have := mem_occPairs_of t.tableData i hi hocc
    rwa [getKey_eq, hkey, hval] at this
  · intro h
    obtain ⟨j, hj, hocc, hkey, hval⟩ := occPairs_elim t.tableData (k, v) h
    have hfind : t.find k = some j :=
      (find_some_iff_of_inv t hInv k j).mpr ⟨hj, hocc, by rw [← getKey_eq]; exact hkey⟩
    rw [HashTable.get, hfind]
    simpa using hval

theorem get_eq_none_iff_of_inv (t : HashTable) (hInv : TableInv t) (k : String) :
    t.get k = none ↔ k ∉ occKeys t.tableData := by
  constructor
  · intro h hk
    obtain ⟨j, hj, hocc, hkey⟩ := occKeys_elim t.tableData k hk
    have hfind : t.find k = some j :=
      (find_some_iff_of_inv t hInv k j).mpr ⟨hj, hocc, by rw [← getKey_eq]; exact hkey⟩
    rw [HashTable.get, hfind] at h
    cases h
  · intro h
    rw [HashTable.get]
    cases hf : t.find k with
    | none => rfl
    | some i =>
      obtain ⟨hi, hocc, hkey⟩ := (find_some_iff_of_inv t hInv k i).mp hf
      exact absurd (hkey ▸ mem_occKeys_of t.tableData i hi hocc) h

theorem contains_iff_of_inv (t : HashTable) (hInv : TableInv t) (k : String) :
    t.contains k = true ↔ k ∈ occKeys t.tableData := by
  rw [HashTable.contains]
  constructor
  · intro h
    obtain ⟨i, hf⟩ := Option.isSome_iff_exists.mp h
    obtain ⟨hi, hocc, hkey⟩ := (find_some_iff_of_inv t hInv k i).mp hf
    exact hkey ▸ mem_occKeys_of t.tableData i hi hocc
  · intro h
    obtain ⟨j, hj, hocc, hkey⟩ := occKeys_elim t.tableData k h
    have hfind : t.find k = some j :=
      (find_some_iff_of_inv t hInv k j).mpr ⟨hj, hocc, by rw [← getKey_eq]; exact hkey⟩
    rw [hfind]; rfl

theorem option_nat_ext (o1 o2 : Option Nat) (h : ∀ v, o1 = some v ↔ o2 = some v) : o1 = o2 := by
  cases o1 with
  | none =>
    cases o2 with
    | none => rfl
    | some v => exact absurd ((h v).mpr rfl) (by simp)
  | some v =>
    cases o2 with
    | none => exact absurd ((h v).mp rfl) (by simp)
    | some w => rw [(h v).mp rfl]

/-! Success of the rehash reinsertion loop: some ESS slot is always on the
path when the offsets cover all slots. -/

theorem exists_offset_hits (cap home j : Nat) (hcap0 : 0 < cap) (hj : j < cap) :
    ∃ o, o < cap ∧ probeIdx cap home o = j := by
  have hhc : home % cap < cap := Nat.mod_lt _ hcap0
  by_cases hle : home % cap ≤ j
  · refine ⟨j - home % cap, by omega, ?_⟩
    unfold probeIdx
    rw [Nat.add_mod, Nat.mod_eq_of_lt (show j - home % cap < cap by omega)]
    rw [show home % cap + (j - home % cap) = j by omega]
    exact Nat.mod_eq_of_lt hj
  · refine ⟨j + cap - home % cap, by omega, ?_⟩
    unfold probeIdx
    rw [Nat.add_mod, Nat.mod_eq_of_lt (show j + cap - home % cap < cap by omega)]
    rw [show home % cap + (j + cap - home % cap) = j + cap by omega]
    rw [Nat.add_mod_right]
    exact Nat.mod_eq_of_lt hj

theorem exists_empty_slot (data : List HashTableBucket)
    (hroom : countOcc data < data.length) :
    ∃ j, j < data.length ∧ (getBucket data j).isEmpty = true := by
  have hne : ¬ ∀ b ∈ data, (!b.isEmpty) = true := by
    intro hall
    have := List.filter_eq_self.mpr hall
    rw [countOcc, this] at hroom
    omega
  push_neg at hne
  obtain ⟨b, hb, hbe⟩ := hne
  obtain ⟨j, hj, hbj⟩ := List.mem_iff_getElem.mp hb
  refine ⟨j, hj, ?_⟩
  have : getBucket data j = b := by
    simp [getBucket, List.getD_eq_getElem?_getD, List.getElem?_eq_getElem hj, hbj]
  rw [this]
  simpa using hbe

theorem exists_ess_on_path (data : List HashTableBucket) (cap home : Nat) (offs : List Nat)
    (hperm : offs.Perm (List.range cap)) (hcap : cap = data.length)
    (hroom : countOcc data < cap)
    (hnoear : ∀ i, (getBucket data i).isEAR = false) :
    ∃ o ∈ offs, (getBucket data (probeIdx cap home o)).isESS = true := by
  have hcap0 : 0 < cap := Nat.lt_of_le_of_lt (Nat.zero_le _) hroom
  obtain ⟨j, hj, hemp⟩ := exists_empty_slot data (hcap ▸ hroom)
  obtain ⟨o, ho, hhit⟩ := exists_offset_hits cap home j hcap0 (hcap ▸ hj)
  refine ⟨o, (hperm.mem_iff).mpr (List.mem_range.mpr ho), ?_⟩
  rw [hhit]
  rcases htyp : (getBucket data j).type with h | h | h
  · rw [bucket_isEmpty_iff] at hemp; exact absurd htyp hemp
  · rw [bucket_isESS_iff]; exact htyp
  · have := hnoear j
    rw [show (getBucket data j).isEAR = true by rw [bucket_isEAR_iff]; exact htyp] at this
    cases this

/-! Characterisation of the reinsertion probing loop. -/

theorem iintLoop_spec (data : List HashTableBucket) (cap home : Nat) :
    ∀ offs c, iintLoop data cap home offs = some c →
      (getBucket data c).isESS = true ∧ (0 < cap → c < cap) ∧
      ∃ pre o post, offs = pre ++ o :: post ∧ probeIdx cap home o = c ∧
        ∀ o' ∈ pre, (getBucket data (probeIdx cap home o')).isESS = false := by
  intro offs
  induction offs with
  | nil => intro c h; simp [iintLoop] at h
  | cons o rest ih =>
    intro c h
    rw [iintLoop] at h
    by_cases h1 : (getBucket data (probeIdx cap home o)).isESS = true
    · rw [if_pos h1, Option.some_inj] at h
      subst h
      exact ⟨h1, fun hc => probeIdx_lt cap home o hc,
        [], o, rest, rfl, rfl, fun o' ho' => absurd ho' (List.not_mem_nil o')⟩
    · rw [if_neg h1] at h
      obtain ⟨hess, hlt, pre, o1, post, hsplit, hidx, hpre⟩ := ih c h
      refine ⟨hess, hlt, o :: pre, o1, post, by rw [hsplit]; rfl, hidx, ?_⟩
      intro o' ho'
      rcases List.mem_cons.mp ho' with h' | h'
      · subst h'; exact Bool.not_eq_true _ ▸ h1
      · exact hpre o' h'

theorem iintLoop_isSome (data : List HashTableBucket) (cap home : Nat) :
    ∀ offs, (∃ o ∈ offs, (getBucket data (probeIdx cap home o)).isESS = true) →
      ∃ c, iintLoop data cap home offs = some c := by
  intro offs
  induction offs with
  | nil => intro h; obtain ⟨o, ho, _⟩ := h; exact absurd ho (List.not_mem_nil o)
  | cons o rest ih =>
    intro h
    rw [iintLoop]
    by_cases h1 : (getBucket data (probeIdx cap home o)).isESS = true
    · exact ⟨probeIdx cap home o, if_pos h1⟩
    · rw [if_neg h1]
      obtain ⟨o', ho', hess⟩ := h
      rcases List.mem_cons.mp ho' with h' | h'
      · subst h'; exact absurd hess h1
      · exact ih ⟨o', h', hess⟩

/-! One reinsertion step during rehash. -/

theorem iint_step (t : HashTable) (k : String) (v : Nat)
    (hc : CleanInv t) (hroom : countOcc t.tableData < t.capacity)
    (hfresh : k ∉ occKeys t.tableData) :
    (t.insertIntoNewTable k v).1 = true ∧
    CleanInv (t.insertIntoNewTable k v).2 ∧
    (occPairs (t.insertIntoNewTable k v).2.tableData).Perm ((k, v) :: occPairs t.tableData) ∧
    (occKeys (t.insertIntoNewTable k v).2.tableData).Perm (k :: occKeys t.tableData) ∧
    (t.insertIntoNewTable k v).2.numFilled = t.numFilled + 1 ∧
    (t.insertIntoNewTable k v).2.capacity = t.capacity ∧
    (t.insertIntoNewTable k v).2.offsets = t.offsets ∧
    (t.insertIntoNewTable k v).2.hash = t.hash ∧
    (t.insertIntoNewTable k v).2.threshold = t.threshold ∧
    (t.insertIntoNewTable k v).2.resizeFactor = t.resizeFactor ∧
    (t.insertIntoNewTable k v).2.shuffle = t.shuffle := by
  obtain ⟨⟨hcap, hfill, hnd, hfind⟩, hnoear, hoperm⟩ := hc
  obtain ⟨c, hloop⟩ :=
    iintLoop_isSome t.tableData t.capacity (t.hash k % t.capacity) t.offsets
      (exists_ess_on_path t.tableData t.capacity (t.hash k % t.capacity) t.offsets
        hoperm rfl hroom hnoear)
  obtain ⟨hessc, hcltf, pre, o, post, hsplit, hidx, hpre⟩ :=
    iintLoop_spec t.tableData t.capacity (t.hash k % t.capacity) t.offsets c hloop
  have hclt : c < t.tableData.length := hcltf hcap
  have hcemp : (getBucket t.tableData c).isEmpty = true := isEmpty_true_of_isESS _ hessc
  have heq : t.insertIntoNewTable k v =
      (true,
        { t with
          tableData := t.tableData.set c ((getBucket t.tableData c).load k v)
          numFilled := t.numFilled + 1 }) := by
    unfold HashTable.insertIntoNewTable
    rw [hloop]
  have hload : (getBucket t.tableData c).load k v = ⟨k, v, BucketType.NORMAL⟩ := rfl
  obtain ⟨hcnt, hpairs, hkeys⟩ :=
    occ_set_load ((getBucket t.tableData c).load k v) (by rw [hload]; rfl)
      t.tableData c hclt hcemp
  rw [heq]
  have hlen2 : (t.tableData.set c ((getBucket t.tableData c).load k v)).length =
      t.tableData.length := List.length_set t.tableData c _
  have hprefacts : ∀ o' ∈ pre,
      (getBucket t.tableData (probeIdx t.capacity (t.hash k % t.capacity) o')).isEmpty = false ∧
      probeIdx t.capacity (t.hash k % t.capacity) o' ≠ c := by
    intro o' ho'
    have hness := hpre o' ho'
    have hnear := hnoear (probeIdx t.capacity (t.hash k % t.capacity) o')
    have hocc : (getBucket t.tableData
        (probeIdx t.capacity (t.hash k % t.capacity) o')).isEmpty = false :=
      isEmpty_false_of _ hness hnear
    refine ⟨hocc, fun hco => ?_⟩
    rw [hco] at hocc
    rw [hcemp] at hocc
    cases hocc
  -- find in the updated table locates the new key at c
  have hfindnew : findLoop (t.tableData.set c ((getBucket t.tableData c).load k v))
      t.capacity (t.hash k % t.capacity) k t.offsets = some c := by
    rw [hsplit]
    refine findLoop_place _ t.capacity (t.hash k % t.capacity) c k v ?_ pre o post hidx ?_
    · rw [hload, getBucket_set_self t.tableData c _ hclt]
    · intro o' ho'
      obtain ⟨hocc, hne⟩ := hprefacts o' ho'
      rw [getBucket_set_ne t.tableData c _ _ (fun he => hne he.symm)]
      refine ⟨hocc, fun hkk => hfresh ?_⟩
      rw [← hkk, ← getKey_eq]
      exact mem_occKeys_of t.tableData _ (probeIdx_lt _ _ _ hcap) hocc
  -- find in the updated table still locates every previously occupied key
  have hfindold : ∀ j, j < t.tableData.length →
      (getBucket t.tableData j).isEmpty = false →
      findLoop (t.tableData.set c ((getBucket t.tableData c).load k v))
        t.capacity (t.hash ((getBucket t.tableData j).key) % t.capacity)
        ((getBucket t.tableData j).key) t.offsets = some j := by
    intro j hj hocc
    refine findLoop_set_other t.tableData t.capacity _ _ c _ hclt ?_ ?_ ?_ t.offsets j
      (hfind j hj hocc)
    · intro _
      exact hcemp
    · rw [hload]; rfl
    · intro _
      rw [hload]
      intro hkk
      refine hfresh ?_
      rw [show k = (getBucket t.tableData j).getKey from hkk]
      exact mem_occKeys_of t.tableData j hj hocc
  have hfill2 : t.numFilled + 1 =
      countOcc (t.tableData.set c ((getBucket t.tableData c).load k v)) := by
    rw [hcnt, hfill]
  have hnd2 : (occKeys (t.tableData.set c ((getBucket t.tableData c).load k v))).Nodup := by
    refine hkeys.nodup_iff.mpr ?_
    rw [hload]
    exact List.Nodup.cons hfresh hnd
  have hfindable : ∀ i2, i2 < t.tableData.length →
      (getBucket (t.tableData.set c ((getBucket t.tableData c).load k v)) i2).isEmpty = false →
      findLoop (t.tableData.set c ((getBucket t.tableData c).load k v))
        t.capacity
        (t.hash ((getBucket (t.tableData.set c ((getBucket t.tableData c).load k v)) i2).key)
          % t.capacity)
        ((getBucket (t.tableData.set c ((getBucket t.tableData c).load k v)) i2).key)
        t.offsets = some i2 := by
    intro i2 hi2 hocc2
    by_cases hic : i2 = c
    · subst hic
      rw [getBucket_set_self t.tableData i2 _ hclt, hload]
      exact hfindnew
    · rw [getBucket_set_ne t.tableData c i2 _ (fun he => hic he.symm)] at hocc2 ⊢
      exact hfindold i2 hi2 hocc2
  have hnoear2 : ∀ i2,
      (getBucket (t.tableData.set c ((getBucket t.tableData c).load k v)) i2).isEAR = false := by
    intro i2
    by_cases hic : i2 = c
    · subst hic
      rw [getBucket_set_self t.tableData i2 _ hclt, hload]
      rfl
    · rw [getBucket_set_ne t.tableData c i2 _ (fun he => hic he.symm)]
      exact hnoear i2
  have hpairs2 : (occPairs (t.tableData.set c ((getBucket t.tableData c).load k v))).Perm
      ((k, v) :: occPairs t.tableData) := by
    rw [hload] at hpairs
    exact hpairs
  have hkeys2 : (occKeys (t.tableData.set c ((getBucket t.tableData c).load k v))).Perm
      (k :: occKeys t.tableData) := by
    rw [hload] at hkeys
    exact hkeys
  refine ⟨rfl, ⟨⟨?_, hfill2, hnd2, ?_⟩, hnoear2, ?_⟩, hpairs2, hkeys2, rfl, ?_, rfl, rfl, rfl,
    rfl, rfl⟩
  · show 0 < (t.tableData.set c ((getBucket t.tableData c).load k v)).length
    rw [hlen2]
    exact hcap
  · show ∀ i2, i2 < (t.tableData.set c ((getBucket t.tableData c).load k v)).length →
      (getBucket (t.tableData.set c ((getBucket t.tableData c).load k v)) i2).isEmpty = false →
      findLoop (t.tableData.set c ((getBucket t.tableData c).load k v))
        ((t.tableData.set c ((getBucket t.tableData c).load k v)).length)
        (t.hash ((getBucket (t.tableData.set c ((getBucket t.tableData c).load k v)) i2).key)
          % ((t.tableData.set c ((getBucket t.tableData c).load k v)).length))
        ((getBucket (t.tableData.set c ((getBucket t.tableData c).load k v)) i2).key)
        t.offsets = some i2
    rw [hlen2]
    exact hfindable
  · show t.offsets.Perm
      (List.range ((t.tableData.set c ((getBucket t.tableData c).load k v)).length))
    rw [hlen2]
    exact hoperm
  · show (t.tableData.set c ((getBucket t.tableData c).load k v)).length = t.tableData.length
    exact hlen2

/-! The rehash reinsertion loop. -/

theorem rehashLoop_nil (target : Nat) (newT : HashTable) :
    rehashLoop target [] newT = newT := rfl

theorem rehashLoop_cons (target : Nat) (b : HashTableBucket) (rest : List HashTableBucket)
    (newT : HashTable) :
    rehashLoop target (b :: rest) newT =
      (if target =
          (if !b.isEmpty then (newT.insertIntoNewTable b.getKey b.getValue).2 else newT).numFilled
       then (if !b.isEmpty then (newT.insertIntoNewTable b.getKey b.getValue).2 else newT)
       else rehashLoop target rest
         (if !b.isEmpty then (newT.insertIntoNewTable b.getKey b.getValue).2 else newT)) := rfl

theorem rehashLoop_spec :
    ∀ (olds : List HashTableBucket) (newT : HashTable) (target : Nat),
      CleanInv newT →
      (occKeys olds).Nodup →
      (∀ x ∈ occKeys olds, x ∉ occKeys newT.tableData) →
      newT.numFilled + countOcc olds = target →
      target ≤ newT.capacity →
      CleanInv (rehashLoop target olds newT) ∧
      (occPairs (rehashLoop target olds newT).tableData).Perm
        (occPairs olds ++ occPairs newT.tableData) ∧
      (rehashLoop target olds newT).numFilled = target ∧
      (rehashLoop target olds newT).capacity = newT.capacity ∧
      (rehashLoop target olds newT).offsets = newT.offsets ∧
      (rehashLoop target olds newT).hash = newT.hash := by
  intro olds
  induction olds with
  | nil =>
    intro newT target hCI hnd hdisj htar hle
    rw [rehashLoop_nil]
    rw [countOcc] at htar
    simp only [List.filter_nil, List.length_nil, Nat.add_zero] at htar
    exact ⟨hCI, by simp [occPairs], htar, rfl, rfl, rfl⟩
  | cons b rest ih =>
    intro newT target hCI hnd hdisj htar hle
    rw [rehashLoop_cons]
    by_cases hb : b.isEmpty = true
    · rw [hb]
      simp only [Bool.not_true, Bool.false_eq_true, if_false]
      rw [countOcc_cons_emp b rest hb] at htar
      rw [occKeys_cons_emp b rest hb] at hnd hdisj
      rw [occPairs_cons_emp b rest hb]
      by_cases hstop : target = newT.numFilled
      · rw [if_pos hstop]
        have h0 : countOcc rest = 0 := by omega
        have : occPairs rest = [] :=
          List.eq_nil_of_length_eq_zero ((length_occPairs rest).trans h0)
        rw [this]
        exact ⟨hCI, by simp, hstop.symm, rfl, rfl, rfl⟩
      · rw [if_neg hstop]
        exact ih newT target hCI hnd hdisj htar hle
    · rw [Bool.not_eq_true] at hb
      rw [hb]
      simp only [Bool.not_false, if_true]
      rw [countOcc_cons_occ b rest hb] at htar
      rw [occKeys_cons_occ b rest hb] at hnd hdisj
      rw [occPairs_cons_occ b rest hb]
      have hroom : countOcc newT.tableData < newT.capacity := by
        obtain ⟨⟨hcap, hfill, _, _⟩, _, _⟩ := hCI
        omega
      have hfresh : b.getKey ∉ occKeys newT.tableData :=
        hdisj b.getKey (List.mem_cons_self _ _)
      obtain ⟨_, hCI', hpairs', hkeys', hfill', hcap', hoffs', hhash', _, _, _⟩ :=
        iint_step newT b.getKey b.getValue hCI hroom hfresh
      by_cases hstop : target = (newT.insertIntoNewTable b.getKey b.getValue).2.numFilled
      · rw [if_pos hstop]
        have h0 : countOcc rest = 0 := by omega
        have hrest : occPairs rest = [] :=
          List.eq_nil_of_length_eq_zero ((length_occPairs rest).trans h0)
        rw [hrest]
        refine ⟨hCI', ?_, hstop.symm, hcap', hoffs', hhash'⟩
        simpa using hpairs'
      · rw [if_neg hstop]
        have hnd' : (occKeys rest).Nodup := hnd.of_cons
        have hdisj' : ∀ x ∈ occKeys rest,
            x ∉ occKeys (newT.insertIntoNewTable b.getKey b.getValue).2.tableData := by
          intro x hx hmem
          rcases List.mem_cons.mp ((hkeys'.mem_iff).mp hmem) with h1 | h1
          · rw [h1] at hx
            exact (List.nodup_cons.mp hnd).1 hx
          · exact hdisj x (List.mem_cons_of_mem _ hx) h1
        have htar' : (newT.insertIntoNewTable b.getKey b.getValue).2.numFilled +
            countOcc rest = target := by omega
        have hle' : target ≤ (newT.insertIntoNewTable b.getKey b.getValue).2.capacity := by
          rw [hcap']; exact hle
        obtain ⟨hRci, hRpairs, hRfill, hRcap, hRoffs, hRhash⟩ :=
          ih (newT.insertIntoNewTable b.getKey b.getValue).2 target hCI' hnd' hdisj' htar' hle'
        refine ⟨hRci, ?_, hRfill, by rw [hRcap, hcap'], by rw [hRoffs, hoffs'],
          by rw [hRhash, hhash']⟩
        refine hRpairs.trans ?_
        refine (List.Perm.append_left (occPairs rest) hpairs').trans ?_
        exact List.perm_middle

/-! Freshly constructed tables. -/

theorem mk_capacity (hash : String → Nat) (shuffle : List Nat → List Nat) (c : Nat)
    (th rf : ℚ) : (mkHashTable hash shuffle c th rf).capacity = c := by
  simp [mkHashTable, HashTable.capacity]

theorem mk_offsets_perm (hash : String → Nat) (shuffle : List Nat → List Nat) (c : Nat)
    (th rf : ℚ) (hsh : ∀ l, (shuffle l).Perm l) (hc : 0 < c) :
    (mkHashTable hash shuffle c th rf).offsets.Perm (List.range c) ∧
    (mkHashTable hash shuffle c th rf).offsets.head? = some 0 ∧
    (mkHashTable hash shuffle c th rf).offsets.length = c := by
  obtain ⟨n, rfl⟩ : ∃ n, c = n + 1 := ⟨c - 1, by omega⟩
  have hoff : (mkHashTable hash shuffle (n + 1) th rf).offsets =
      0 :: shuffle (List.map (· + 1) (List.range n)) := by
    simp [mkHashTable, List.range_succ_eq_map]
  rw [hoff]
  have hperm : (0 :: shuffle (List.map (· + 1) (List.range n))).Perm (List.range (n + 1)) := by
    rw [List.range_succ_eq_map]
    exact List.Perm.cons 0 (hsh _)
  exact ⟨hperm, rfl, by rw [hperm.length_eq, List.length_range]⟩

theorem replicate_filter_occ (c : Nat) :
    (List.replicate c (default : HashTableBucket)).filter (fun b => !b.isEmpty) = [] := by
  rw [List.filter_eq_nil_iff]
  intro a ha
  rw [List.eq_of_mem_replicate ha]
  decide

theorem mk_cleanInv (hash : String → Nat) (shuffle : List Nat → List Nat) (c : Nat)
    (th rf : ℚ) (hsh : ∀ l, (shuffle l).Perm l) (hc : 0 < c) :
    CleanInv (mkHashTable hash shuffle c th rf) := by
  have hdata : (mkHashTable hash shuffle c th rf).tableData = List.replicate c default := rfl
  refine ⟨⟨?_, ?_, ?_, ?_⟩, ?_, ?_⟩
  · show 0 < (mkHashTable hash shuffle c th rf).tableData.length
    rw [hdata, List.length_replicate]
    exact hc
  · show (0 : Nat) = countOcc (mkHashTable hash shuffle c th rf).tableData
    rw [hdata, countOcc, replicate_filter_occ]
    rfl
  · show (occKeys (mkHashTable hash shuffle c th rf).tableData).Nodup
    rw [hdata, occKeys, replicate_filter_occ]
    exact List.nodup_nil
  · intro i hi hocc
    rw [hdata, getBucket_replicate] at hocc
    cases hocc
  · intro i
    rw [hdata, getBucket_replicate]
    rfl
  · show (mkHashTable hash shuffle c th rf).offsets.Perm
      (List.range (mkHashTable hash shuffle c th rf).tableData.length)
    rw [hdata, List.length_replicate]
    exact (mk_offsets_perm hash shuffle c th rf hsh hc).1

theorem find_ext (t1 t2 : HashTable) (hd : t2.tableData = t1.tableData)
    (ho : t2.offsets = t1.offsets) (hh : t2.hash = t1.hash) (k : String) :
    t2.find k = t1.find k := by
  rw [HashTable.find, HashTable.find, HashTable.capacity, HashTable.capacity, hd, ho, hh]

/-! `rehash` preserves the invariant and the multiset of live pairs. -/

theorem rehash_assemble (t R : HashTable) (hRci : CleanInv R) (hRhash : R.hash = t.hash)
    (hRfill : R.numFilled = t.numFilled) :
    TableInv { t with tableData := R.tableData, offsets := R.offsets } := by
  obtain ⟨⟨hcapPos, hfillEq, hnd, hfindable⟩, hnoear, hoperm⟩ := hRci
  refine ⟨hcapPos, ?_, hnd, ?_⟩
  · show t.numFilled = countOcc R.tableData
    rw [← hRfill]
    exact hfillEq
  · intro i hi hocc
    rw [find_ext R { t with tableData := R.tableData, offsets := R.offsets } rfl rfl
      (by rw [hRhash])]
    exact hfindable i hi hocc

theorem rehash_spec (t : HashTable) (hInv : TableInv t)
    (hsh : ∀ l, (t.shuffle l).Perm l)
    (hroom : t.numFilled ≤ newCapacity t) (hpos : 0 < newCapacity t) :
    TableInv t.rehash ∧
    (occPairs t.rehash.tableData).Perm (occPairs t.tableData) ∧
    t.rehash.capacity = newCapacity t ∧
    t.rehash.offsets.Perm (List.range (newCapacity t)) ∧
    t.rehash.offsets.head? = some 0 ∧
    (∀ i, (getBucket t.rehash.tableData i).isEAR = false) := by
  obtain ⟨hcap, hfill, hnd, hfind⟩ := hInv
  have hCI0 : CleanInv (mkHashTable t.hash t.shuffle (newCapacity t) (1 / 2) 2) :=
    mk_cleanInv t.hash t.shuffle (newCapacity t) (1 / 2) 2 hsh hpos
  have hdata0 : (mkHashTable t.hash t.shuffle (newCapacity t) (1 / 2) 2).tableData =
      List.replicate (newCapacity t) default := rfl
  have hocc0 : occKeys (mkHashTable t.hash t.shuffle (newCapacity t) (1 / 2) 2).tableData
      = [] := by
    rw [hdata0, occKeys, replicate_filter_occ]
    rfl
  have hpairs0 : occPairs (mkHashTable t.hash t.shuffle (newCapacity t) (1 / 2) 2).tableData
      = [] := by
    rw [hdata0, occPairs, replicate_filter_occ]
    rfl
  obtain ⟨hRci, hRpairs, hRfill, hRcap, hRoffs, hRhash⟩ :=
    rehashLoop_spec t.tableData (mkHashTable t.hash t.shuffle (newCapacity t) (1 / 2) 2)
      t.numFilled hCI0 hnd
      (by intro x hx hmem; rw [hocc0] at hmem; exact List.not_mem_nil x hmem)
      (by rw [show (mkHashTable t.hash t.shuffle (newCapacity t) (1 / 2) 2).numFilled = 0
            from rfl]
          omega)
      (by rw [mk_capacity]; exact hroom)
  have hreq : t.rehash =
      { t with
        tableData := (rehashLoop t.numFilled t.tableData
          (mkHashTable t.hash t.shuffle (newCapacity t) (1 / 2) 2)).tableData
        offsets := (rehashLoop t.numFilled t.tableData
          (mkHashTable t.hash t.shuffle (newCapacity t) (1 / 2) 2)).offsets } := rfl
  rw [hreq]
  have hRhash' : (rehashLoop t.numFilled t.tableData
      (mkHashTable t.hash t.shuffle (newCapacity t) (1 / 2) 2)).hash = t.hash := by
    rw [hRhash]
    rfl
  have hcapeq : ({ t with
      tableData := (rehashLoop t.numFilled t.tableData
        (mkHashTable t.hash t.shuffle (newCapacity t) (1 / 2) 2)).tableData
      offsets := (rehashLoop t.numFilled t.tableData
        (mkHashTable t.hash t.shuffle (newCapacity t) (1 / 2) 2)).offsets } : HashTable).capacity
      = newCapacity t := by
    show (rehashLoop t.numFilled t.tableData
      (mkHashTable t.hash t.shuffle (newCapacity t) (1 / 2) 2)).capacity = newCapacity t
    rw [hRcap, mk_capacity]
  refine ⟨rehash_assemble t _ hRci hRhash' hRfill, ?_, hcapeq, ?_, ?_, hRci.2.1⟩
  · exact hRpairs.trans (by rw [hpairs0]; simp)
  · show (rehashLoop t.numFilled t.tableData
      (mkHashTable t.hash t.shuffle (newCapacity t) (1 / 2) 2)).offsets.Perm
      (List.range (newCapacity t))
    rw [hRoffs]
    exact (mk_offsets_perm t.hash t.shuffle (newCapacity t) (1 / 2) 2 hsh hpos).1
  · show (rehashLoop t.numFilled t.tableData
      (mkHashTable t.hash t.shuffle (newCapacity t) (1 / 2) 2)).offsets.head? = some 0
    rw [hRoffs]
    exact (mk_offsets_perm t.hash t.shuffle (newCapacity t) (1 / 2) 2 hsh hpos).2.1

/-! A successful placement by `insert` (before any rehash). -/

theorem not_mem_occKeys_of_find_none (t : HashTable) (hInv : TableInv t) (k : String)
    (hfn : t.find k = none) : k ∉ occKeys t.tableData := by
  intro hk
  obtain ⟨j, hj, hocc, hkey⟩ := occKeys_elim t.tableData k hk
  have := hInv.2.2.2 j hj hocc
  rw [getKey_eq] at hkey
  rw [hkey, hfn] at this
  cases this

theorem insert_place_inv (t : HashTable) (k : String) (v : Nat) (c : Nat)
    (hInv : TableInv t) (hfn : t.find k = none)
    (hfe : firstEmptyIdx t.tableData t.capacity (t.hash k % t.capacity) t.offsets = some c) :
    TableInv
      { t with
        tableData := t.tableData.set c ((getBucket t.tableData c).load k v)
        numFilled := t.numFilled + 1 } ∧
    (occPairs (t.tableData.set c ((getBucket t.tableData c).load k v))).Perm
      ((k, v) :: occPairs t.tableData) ∧
    (occKeys (t.tableData.set c ((getBucket t.tableData c).load k v))).Perm
      (k :: occKeys t.tableData) ∧
    c < t.tableData.length ∧ (getBucket t.tableData c).isEmpty = true := by
  obtain ⟨hcap, hfill, hnd, hfind⟩ := hInv
  obtain ⟨hemp, hcltf, pre, o, post, hsplit, hidx, hpre⟩ :=
    firstEmptyIdx_spec t.tableData t.capacity (t.hash k % t.capacity) t.offsets c hfe
  have hclt : c < t.tableData.length := hcltf hcap
  have hfresh : k ∉ occKeys t.tableData :=
    not_mem_occKeys_of_find_none t ⟨hcap, hfill, hnd, hfind⟩ k hfn
  have hload : (getBucket t.tableData c).load k v = ⟨k, v, BucketType.NORMAL⟩ := rfl
  obtain ⟨hcnt, hpairs, hkeys⟩ :=
    occ_set_load ((getBucket t.tableData c).load k v) (by rw [hload]; rfl)
      t.tableData c hclt hemp
  have hlen2 : (t.tableData.set c ((getBucket t.tableData c).load k v)).length =
      t.tableData.length := List.length_set t.tableData c _
  have hprekeys : ∀ o' ∈ pre,
      (getBucket t.tableData (probeIdx t.capacity (t.hash k % t.capacity) o')).key ≠ k := by
    intro o' ho'
    have := findLoop_keys_ne_of_none t.tableData t.capacity (t.hash k % t.capacity) k
      pre (o :: post) (by rw [← hsplit]; exact hfn) hpre o' ho'
    exact this
  have hprene : ∀ o' ∈ pre,
      probeIdx t.capacity (t.hash k % t.capacity) o' ≠ c := by
    intro o' ho' hco
    have := hpre o' ho'
    rw [hco, hemp] at this
    cases this
  have hfindnew : findLoop (t.tableData.set c ((getBucket t.tableData c).load k v))
      t.capacity (t.hash k % t.capacity) k t.offsets = some c := by
    rw [hsplit]
    refine findLoop_place _ t.capacity (t.hash k % t.capacity) c k v ?_ pre o post hidx ?_
    · rw [hload, getBucket_set_self t.tableData c _ hclt]
    · intro o' ho'
      rw [getBucket_set_ne t.tableData c _ _ (fun he => hprene o' ho' he.symm)]
      exact ⟨hpre o' ho', hprekeys o' ho'⟩
  have hfindold : ∀ j, j < t.tableData.length →
      (getBucket t.tableData j).isEmpty = false →
      findLoop (t.tableData.set c ((getBucket t.tableData c).load k v))
        t.capacity (t.hash ((getBucket t.tableData j).key) % t.capacity)
        ((getBucket t.tableData j).key) t.offsets = some j := by
    intro j hj hocc
    refine findLoop_set_other t.tableData t.capacity _ _ c _ hclt (fun _ => hemp) ?_ ?_
      t.offsets j (hfind j hj hocc)
    · rw [hload]; rfl
    · intro _
      rw [hload]
      intro hkk
      refine hfresh ?_
      rw [show k = (getBucket t.tableData j).getKey from hkk]
      exact mem_occKeys_of t.tableData j hj hocc
  have hkeys2 : (occKeys (t.tableData.set c ((getBucket t.tableData c).load k v))).Perm
      (k :: occKeys t.tableData) := by
    rw [hload] at hkeys
    exact hkeys
  have hpairs2 : (occPairs (t.tableData.set c ((getBucket t.tableData c).load k v))).Perm
      ((k, v) :: occPairs t.tableData) := by
    rw [hload] at hpairs
    exact hpairs
  refine ⟨⟨?_, ?_, ?_, ?_⟩, hpairs2, hkeys2, hclt, hemp⟩
  · show 0 < (t.tableData.set c ((getBucket t.tableData c).load k v)).length
    rw [hlen2]
    exact hcap
  · show t.numFilled + 1 =
      countOcc (t.tableData.set c ((getBucket t.tableData c).load k v))
    rw [hcnt, hfill]
  · exact hkeys2.nodup_iff.mpr (List.Nodup.cons hfresh hnd)
  · have hfindable : ∀ i2, i2 < t.tableData.length →
        (getBucket (t.tableData.set c ((getBucket t.tableData c).load k v)) i2).isEmpty
          = false →
        findLoop (t.tableData.set c ((getBucket t.tableData c).load k v))
          t.capacity
          (t.hash ((getBucket (t.tableData.set c ((getBucket t.tableData c).load k v)) i2).key)
            % t.capacity)
          ((getBucket (t.tableData.set c ((getBucket t.tableData c).load k v)) i2).key)
          t.offsets = some i2 := by
      intro i2 hi2 hocc2
      by_cases hic : i2 = c
      · subst hic
        rw [getBucket_set_self t.tableData i2 _ hclt, hload]
        exact hfindnew
      · rw [getBucket_set_ne t.tableData c i2 _ (fun he => hic he.symm)] at hocc2 ⊢
        exact hfindold i2 hi2 hocc2
    show ∀ i2, i2 < (t.tableData.set c ((getBucket t.tableData c).load k v)).length →
      (getBucket (t.tableData.set c ((getBucket t.tableData c).load k v)) i2).isEmpty = false →
      findLoop (t.tableData.set c ((getBucket t.tableData c).load k v))
        ((t.tableData.set c ((getBucket t.tableData c).load k v)).length)
        (t.hash ((getBucket (t.tableData.set c ((getBucket t.tableData c).load k v)) i2).key)
          % ((t.tableData.set c ((getBucket t.tableData c).load k v)).length))
        ((getBucket (t.tableData.set c ((getBucket t.tableData c).load k v)) i2).key)
        t.offsets = some i2
    rw [hlen2]
    exact hfindable

/-! Capacity growth under rehash. -/

theorem le_newCapacity (t : HashTable) (hrf : 1 ≤ t.resizeFactor) :
    t.capacity ≤ newCapacity t := by
  unfold newCapacity
  have h1 : ((t.capacity : ℤ) : ℚ) ≤ (t.capacity : ℚ) * t.resizeFactor := by
    push_cast
    exact le_mul_of_one_le_right (by positivity) hrf
  have h2 : (t.capacity : ℤ) ≤ ((t.capacity : ℚ) * t.resizeFactor).floor :=
    Rat.le_floor.mpr h1
  have h3 := Int.toNat_le_toNat h2
  rwa [Int.toNat_natCast] at h3

theorem lt_newCapacity (t : HashTable) (hrf : 2 ≤ t.resizeFactor) (hcap : 0 < t.capacity) :
    t.capacity < newCapacity t := by
  unfold newCapacity
  have h1 : ((t.capacity : ℤ) + 1 : ℚ) ≤ (t.capacity : ℚ) * t.resizeFactor := by
    push_cast
    have h2 : (t.capacity : ℚ) * 2 ≤ (t.capacity : ℚ) * t.resizeFactor :=
      mul_le_mul_of_nonneg_left hrf (by positivity)
    have h3 : (1 : ℚ) ≤ (t.capacity : ℚ) := by exact_mod_cast hcap
    nlinarith
  have h2 : (t.capacity : ℤ) + 1 ≤ ((t.capacity : ℚ) * t.resizeFactor).floor :=
    Rat.le_floor.mpr (by exact_mod_cast h1)
  have h3 := Int.toNat_le_toNat h2
  rw [show ((t.capacity : ℤ) + 1) = ((t.capacity + 1 : Nat) : ℤ) by push_cast; ring] at h3
  rw [Int.toNat_natCast] at h3
  omega

/-! The full case analysis of `insert`. -/

theorem insert_cases (t : HashTable) (k : String) (v : Nat) (hInv : TableInv t)
    (hoperm : t.offsets.Perm (List.range t.capacity))
    (hsh : ∀ l, (t.shuffle l).Perm l) (hrf : 1 ≤ t.resizeFactor) :
    ((t.insert k v).1 = false ∧ (t.insert k v).2 = t) ∨
    ((t.insert k v).1 = true ∧ TableInv (t.insert k v).2 ∧
      (occPairs (t.insert k v).2.tableData).Perm ((k, v) :: occPairs t.tableData) ∧
      (t.insert k v).2.numFilled = t.numFilled + 1 ∧
      (t.insert k v).2.offsets.Perm (List.range (t.insert k v).2.capacity)) := by
  rcases hscan : insertScan t.tableData t.capacity (t.hash k % t.capacity) k t.offsets none
    with _ | c | _
  · left
    have heq : t.insert k v = (false, t) := by
      unfold HashTable.insert
      rw [hscan]
    rw [heq]
    exact ⟨rfl, rfl⟩
  · right
    have hfn : t.find k = none := by
      cases hf : t.find k with
      | none => rfl
      | some i =>
        have hdup := insertScan_dup_of_found t.tableData t.capacity (t.hash k % t.capacity) k
          t.offsets none i hf
        exact ScanResult.noConfusion (hscan.symm.trans hdup)
    have hchar := insertScan_of_find_none t.tableData t.capacity (t.hash k % t.capacity) k
      t.offsets none hfn
    have hfe : firstEmptyIdx t.tableData t.capacity (t.hash k % t.capacity) t.offsets
        = some c := by
      cases hfe0 : firstEmptyIdx t.tableData t.capacity (t.hash k % t.capacity) t.offsets with
      | none =>
        rw [hfe0] at hchar
        rw [hscan] at hchar
        exact ScanResult.noConfusion hchar
      | some c' =>
        rw [hfe0] at hchar
        rw [hscan] at hchar
        cases hchar
        rfl
    obtain ⟨hInv1, hpairs1, hkeys1, hclt, hemp⟩ := insert_place_inv t k v c hInv hfn hfe
    have heq : t.insert k v =
        (if ({ t with
            tableData := t.tableData.set c ((getBucket t.tableData c).load k v)
            numFilled := t.numFilled + 1 } : HashTable).threshold ≤
            ({ t with
            tableData := t.tableData.set c ((getBucket t.tableData c).load k v)
            numFilled := t.numFilled + 1 } : HashTable).alpha
         then (true, ({ t with
            tableData := t.tableData.set c ((getBucket t.tableData c).load k v)
            numFilled := t.numFilled + 1 } : HashTable).rehash)
         else (true, { t with
            tableData := t.tableData.set c ((getBucket t.tableData c).load k v)
            numFilled := t.numFilled + 1 })) := by
      unfold HashTable.insert
      rw [hscan]
    have hlen2 : (t.tableData.set c ((getBucket t.tableData c).load k v)).length =
        t.tableData.length := List.length_set t.tableData c _
    have ht1cap : ({ t with
        tableData := t.tableData.set c ((getBucket t.tableData c).load k v)
        numFilled := t.numFilled + 1 } : HashTable).capacity = t.capacity := hlen2
    by_cases hα : ({ t with
        tableData := t.tableData.set c ((getBucket t.tableData c).load k v)
        numFilled := t.numFilled + 1 } : HashTable).threshold ≤
        ({ t with
        tableData := t.tableData.set c ((getBucket t.tableData c).load k v)
        numFilled := t.numFilled + 1 } : HashTable).alpha
    · rw [heq, if_pos hα]
      have hroom1 : ({ t with
          tableData := t.tableData.set c ((getBucket t.tableData c).load k v)
          numFilled := t.numFilled + 1 } : HashTable).numFilled ≤
          newCapacity { t with
            tableData := t.tableData.set c ((getBucket t.tableData c).load k v)
            numFilled := t.numFilled + 1 } := by
        have hle := le_newCapacity { t with
            tableData := t.tableData.set c ((getBucket t.tableData c).load k v)
            numFilled := t.numFilled + 1 } hrf
        rw [ht1cap] at hle
        have hcnt : t.numFilled + 1 =
            countOcc (t.tableData.set c ((getBucket t.tableData c).load k v)) := hInv1.2.1
        have hcle : countOcc (t.tableData.set c ((getBucket t.tableData c).load k v)) ≤
            (t.tableData.set c ((getBucket t.tableData c).load k v)).length :=
          countOcc_le_length _
        show t.numFilled + 1 ≤ _
        rw [hlen2] at hcle
        have : t.numFilled + 1 ≤ t.capacity := by
          rw [hcnt]
          exact hcle
        omega
      have hpos1 : 0 < newCapacity { t with
          tableData := t.tableData.set c ((getBucket t.tableData c).load k v)
          numFilled := t.numFilled + 1 } := by
        have hle := le_newCapacity { t with
            tableData := t.tableData.set c ((getBucket t.tableData c).load k v)
            numFilled := t.numFilled + 1 } hrf
        rw [ht1cap] at hle
        have := hInv.1
        omega
      obtain ⟨hInvR, hpairsR, hcapR, hopermR, _, _⟩ :=
        rehash_spec { t with
            tableData := t.tableData.set c ((getBucket t.tableData c).load k v)
            numFilled := t.numFilled + 1 } hInv1 hsh hroom1 hpos1
      refine ⟨rfl, hInvR, hpairsR.trans hpairs1, rfl, ?_⟩
      rw [hcapR]
      exact hopermR
    · rw [heq, if_neg hα]
      refine ⟨rfl, hInv1, hpairs1, rfl, ?_⟩
      show t.offsets.Perm (List.range
        ((t.tableData.set c ((getBucket t.tableData c).load k v)).length))
      rw [hlen2]
      exact hoperm
  · left
    have heq : t.insert k v = (false, t) := by
      unfold HashTable.insert
      rw [hscan]
    rw [heq]
    exact ⟨rfl, rfl⟩

/-! Case analysis of `remove`. -/

theorem remove_of_find_none (t : HashTable) (k : String) (h : t.find k = none) :
    t.remove k = (false, t) := by
  unfold HashTable.remove
  rw [h]

theorem unload_isESS (b : HashTableBucket) : b.unload.isESS = false := rfl

theorem unload_type (b : HashTableBucket) : b.unload.type = BucketType.EAR := rfl

theorem remove_found (t : HashTable) (k : String) (i : Nat) (hfound : t.find k = some i)
    (huniq : ∀ j, j < t.tableData.length → j ≠ i →
      ¬((getBucket t.tableData j).isEmpty = false ∧ (getBucket t.tableData j).key = k)) :
    (t.remove k).1 = true ∧
    (t.remove k).2.tableData = t.tableData.set i ((getBucket t.tableData i).unload) ∧
    (t.remove k).2.numFilled = t.numFilled - 1 ∧
    (getBucket (t.remove k).2.tableData i).type = BucketType.EAR ∧
    (t.remove k).2.get k = none ∧
    (t.remove k).2.contains k = false := by
  obtain ⟨hi, hocc, hkey⟩ :=
    findLoop_spec t.tableData t.capacity (t.hash k % t.capacity) k rfl t.offsets i hfound
  have heq : t.remove k =
      (true, { t with
        tableData := t.tableData.set i ((getBucket t.tableData i).unload)
        numFilled := t.numFilled - 1 }) := by
    unfold HashTable.remove
    rw [hfound]
  rw [heq]
  have hfn2 : findLoop (t.tableData.set i ((getBucket t.tableData i).unload))
      ((t.tableData.set i ((getBucket t.tableData i).unload)).length)
      (t.hash k % ((t.tableData.set i ((getBucket t.tableData i).unload)).length)) k
      t.offsets = none := by
    refine findLoop_none_of_no_key _ _ _ k ?_ t.offsets
    intro j
    intro hocc' hkey'
    by_cases hji : j = i
    · subst hji
      rw [getBucket_set_self t.tableData j _ hi] at hocc'
      rw [show ((getBucket t.tableData j).unload).isEmpty = true by
        rw [bucket_isEmpty_iff, unload_type]; exact fun h => BucketType.noConfusion h]
        at hocc'
      cases hocc'
    · by_cases hjlen : j < t.tableData.length
      · rw [getBucket_set_ne t.tableData i j _ (fun he => hji he.symm)] at hocc' hkey'
        exact huniq j hjlen hji ⟨hocc', hkey'⟩
      · rw [getBucket_default_of_ge _ j (by
          rw [show (t.tableData.set i ((getBucket t.tableData i).unload)).length
            = t.tableData.length from List.length_set t.tableData i _]
          omega)] at hocc'
        cases hocc'
  refine ⟨rfl, rfl, rfl, ?_, ?_, ?_⟩
  · show (getBucket (t.tableData.set i ((getBucket t.tableData i).unload)) i).type
      = BucketType.EAR
    rw [getBucket_set_self t.tableData i _ hi, unload_type]
  · show ((HashTable.find _ k).map _) = none
    rw [show HashTable.find
        { t with
          tableData := t.tableData.set i ((getBucket t.tableData i).unload)
          numFilled := t.numFilled - 1 } k =
        findLoop (t.tableData.set i ((getBucket t.tableData i).unload))
          ((t.tableData.set i ((getBucket t.tableData i).unload)).length)
          (t.hash k % ((t.tableData.set i ((getBucket t.tableData i).unload)).length)) k
          t.offsets from rfl]
    rw [hfn2]
    rfl
  · show ((HashTable.find _ k).isSome) = false
    rw [show HashTable.find
        { t with
          tableData := t.tableData.set i ((getBucket t.tableData i).unload)
          numFilled := t.numFilled - 1 } k =
        findLoop (t.tableData.set i ((getBucket t.tableData i).unload))
          ((t.tableData.set i ((getBucket t.tableData i).unload)).length)
          (t.hash k % ((t.tableData.set i ((getBucket t.tableData i).unload)).length)) k
          t.offsets from rfl]
    rw [hfn2]
    rfl

theorem remove_inv (t : HashTable) (k : String) (hInv : TableInv t) :
    TableInv (t.remove k).2 ∧ (t.remove k).2.offsets = t.offsets ∧
    (t.remove k).2.capacity = t.capacity ∧
    (t.remove k).2.shuffle = t.shuffle ∧ (t.remove k).2.resizeFactor = t.resizeFactor ∧
    (t.remove k).2.threshold = t.threshold ∧ (t.remove k).2.hash = t.hash := by
  obtain ⟨hcap, hfill, hnd, hfind⟩ := hInv
  cases hf : t.find k with
  | none =>
    rw [remove_of_find_none t k hf]
    exact ⟨⟨hcap, hfill, hnd, hfind⟩, rfl, rfl, rfl, rfl, rfl, rfl⟩
  | some i =>
    obtain ⟨hi, hocc, hkey⟩ :=
      findLoop_spec t.tableData t.capacity (t.hash k % t.capacity) k rfl t.offsets i hf
    have heq : t.remove k =
        (true, { t with
          tableData := t.tableData.set i ((getBucket t.tableData i).unload)
          numFilled := t.numFilled - 1 }) := by
      unfold HashTable.remove
      rw [hf]
    rw [heq]
    obtain ⟨hcnt, hkeysSub, hpairsSub⟩ := occ_set_unload t.tableData i hi hocc
    have hlen2 : (t.tableData.set i ((getBucket t.tableData i).unload)).length =
        t.tableData.length := List.length_set t.tableData i _
    have hfindable : ∀ j, j < t.tableData.length →
        (getBucket (t.tableData.set i ((getBucket t.tableData i).unload)) j).isEmpty = false →
        findLoop (t.tableData.set i ((getBucket t.tableData i).unload))
          t.capacity
          (t.hash ((getBucket (t.tableData.set i ((getBucket t.tableData i).unload)) j).key)
            % t.capacity)
          ((getBucket (t.tableData.set i ((getBucket t.tableData i).unload)) j).key)
          t.offsets = some j := by
      intro j hj hocc'
      have hji : j ≠ i := by
        intro he
        subst he
        rw [getBucket_set_self t.tableData j _ hi] at hocc'
        rw [show ((getBucket t.tableData j).unload).isEmpty = true by
          rw [bucket_isEmpty_iff, unload_type]; exact fun h => BucketType.noConfusion h]
          at hocc'
        cases hocc'
      rw [getBucket_set_ne t.tableData i j _ (fun he => hji he.symm)] at hocc' ⊢
      refine findLoop_set_other t.tableData t.capacity _ _ i _ hi ?_ (unload_isESS _) ?_
        t.offsets j (hfind j hj hocc')
      · intro hkeq
        exfalso
        have h1 := hfind j hj hocc'
        rw [← hkeq, hkey] at h1
        rw [hf] at h1
        exact hji (Option.some_inj.mp h1).symm
      · intro h
        rw [unload_type] at h
        exact BucketType.noConfusion h
    refine ⟨⟨?_, ?_, ?_, ?_⟩, rfl, hlen2, rfl, rfl, rfl, rfl⟩
    · show 0 < (t.tableData.set i ((getBucket t.tableData i).unload)).length
      rw [hlen2]
      exact hcap
    · show t.numFilled - 1 = countOcc (t.tableData.set i ((getBucket t.tableData i).unload))
      omega
    · exact List.Nodup.sublist hkeysSub hnd
    · show ∀ j, j < (t.tableData.set i ((getBucket t.tableData i).unload)).length →
        (getBucket (t.tableData.set i ((getBucket t.tableData i).unload)) j).isEmpty = false →
        findLoop (t.tableData.set i ((getBucket t.tableData i).unload))
          ((t.tableData.set i ((getBucket t.tableData i).unload)).length)
          (t.hash ((getBucket (t.tableData.set i ((getBucket t.tableData i).unload)) j).key)
            % ((t.tableData.set i ((getBucket t.tableData i).unload)).length))
          ((getBucket (t.tableData.set i ((getBucket t.tableData i).unload)) j).key)
          t.offsets = some j
      rw [hlen2]
      exact hfindable

/-! Fields untouched by the operations, and preservation of `Good`. -/

theorem insert_fields (t : HashTable) (k : String) (v : Nat) :
    (t.insert k v).2.shuffle = t.shuffle ∧ (t.insert k v).2.resizeFactor = t.resizeFactor ∧
    (t.insert k v).2.threshold = t.threshold ∧ (t.insert k v).2.hash = t.hash := by
  cases hscan : insertScan t.tableData t.capacity (t.hash k % t.capacity) k t.offsets none with
  | dup =>
    have heq : t.insert k v = (false, t) := by
      unfold HashTable.insert
      rw [hscan]
    rw [heq]
    exact ⟨rfl, rfl, rfl, rfl⟩
  | full =>
    have heq : t.insert k v = (false, t) := by
      unfold HashTable.insert
      rw [hscan]
    rw [heq]
    exact ⟨rfl, rfl, rfl, rfl⟩
  | place c =>
    have heq : t.insert k v =
        (if ({ t with
            tableData := t.tableData.set c ((getBucket t.tableData c).load k v)
            numFilled := t.numFilled + 1 } : HashTable).threshold ≤
            ({ t with
            tableData := t.tableData.set c ((getBucket t.tableData c).load k v)
            numFilled := t.numFilled + 1 } : HashTable).alpha
         then (true, ({ t with
            tableData := t.tableData.set c ((getBucket t.tableData c).load k v)
            numFilled := t.numFilled + 1 } : HashTable).rehash)
         else (true, { t with
            tableData := t.tableData.set c ((getBucket t.tableData c).load k v)
            numFilled := t.numFilled + 1 })) := by
      unfold HashTable.insert
      rw [hscan]
    rw [heq]
    split
    · exact ⟨rfl, rfl, rfl, rfl⟩
    · exact ⟨rfl, rfl, rfl, rfl⟩

theorem good_mk (hash : String → Nat) (shuffle : List Nat → List Nat) (c : Nat) (th rf : ℚ)
    (hsh : ∀ l, (shuffle l).Perm l) (hc : 0 < c) (hrf : 1 ≤ rf) :
    Good (mkHashTable hash shuffle c th rf) := by
  obtain ⟨hInv, _, hoperm⟩ := mk_cleanInv hash shuffle c th rf hsh hc
  exact ⟨hInv, hoperm, hsh, hrf⟩

theorem good_insert (t : HashTable) (k : String) (v : Nat) (hg : Good t) :
    Good (t.insert k v).2 := by
  obtain ⟨hInv, hoperm, hsh, hrf⟩ := hg
  obtain ⟨hsh', hrf', _, _⟩ := insert_fields t k v
  rcases insert_cases t k v hInv hoperm hsh hrf with ⟨_, heq⟩ | ⟨_, hInv', _, _, hoperm'⟩
  · rw [heq]
    exact ⟨hInv, hoperm, hsh, hrf⟩
  · refine ⟨hInv', hoperm', ?_, ?_⟩
    · rw [hsh']
      exact hsh
    · rw [hrf']
      exact hrf

theorem good_remove (t : HashTable) (k : String) (hg : Good t) :
    Good (t.remove k).2 := by
  obtain ⟨hInv, hoperm, hsh, hrf⟩ := hg
  obtain ⟨hInv', hoffs', hcap', hsh', hrf', _, _⟩ := remove_inv t k hInv
  refine ⟨hInv', ?_, ?_, ?_⟩
  · rw [hoffs', hcap']
    exact hoperm
  · rw [hsh']
    exact hsh
  · rw [hrf']
    exact hrf

theorem runOps_nil (t : HashTable) : runOps t [] = t := rfl

theorem runOps_cons (t : HashTable) (op : TableOp) (rest : List TableOp) :
    runOps t (op :: rest) =
      runOps
        (match op with
         | TableOp.ins k v => (t.insert k v).2
         | TableOp.rem k => (t.remove k).2)
        rest := rfl

theorem good_runOps (ops : List TableOp) :
    ∀ (t : HashTable), Good t → Good (runOps t ops) := by
  induction ops with
  | nil => intro t hg; exact hg
  | cons op rest ih =>
    intro t hg
    rw [runOps_cons]
    cases op with
    | ins k v => exact ih _ (good_insert t k v hg)
    | rem k => exact ih _ (good_remove t k hg)

/-! Fields untouched by `insertIntoNewTable`, `rehashLoop`, `rehash`. -/

theorem iint_fields (t : HashTable) (k : String) (v : Nat) :
    (t.insertIntoNewTable k v).2.capacity = t.capacity ∧
    (t.insertIntoNewTable k v).2.offsets = t.offsets ∧
    (t.insertIntoNewTable k v).2.hash = t.hash ∧
    (t.insertIntoNewTable k v).2.shuffle = t.shuffle := by
  unfold HashTable.insertIntoNewTable
  cases h : iintLoop t.tableData t.capacity (t.hash k % t.capacity) t.offsets with
  | none => exact ⟨rfl, rfl, rfl, rfl⟩
  | some i =>
    refine ⟨?_, rfl, rfl, rfl⟩
    show (t.tableData.set i ((getBucket t.tableData i).load k v)).length = t.tableData.length
    exact List.length_set t.tableData i _

theorem rehashLoop_fields :
    ∀ (olds : List HashTableBucket) (newT : HashTable) (target : Nat),
      (rehashLoop target olds newT).capacity = newT.capacity ∧
      (rehashLoop target olds newT).offsets = newT.offsets := by
  intro olds
  induction olds with
  | nil => intro newT target; rw [rehashLoop_nil]; exact ⟨rfl, rfl⟩
  | cons b rest ih =>
    intro newT target
    rw [rehashLoop_cons]
    by_cases hb : (!b.isEmpty) = true
    · rw [hb]
      simp only [if_true]
      obtain ⟨hcap, hoffs, _, _⟩ := iint_fields newT b.getKey b.getValue
      by_cases hstop : target = (newT.insertIntoNewTable b.getKey b.getValue).2.numFilled
      · rw [if_pos hstop]
        exact ⟨hcap, hoffs⟩
      · rw [if_neg hstop]
        obtain ⟨h1, h2⟩ := ih (newT.insertIntoNewTable b.getKey b.getValue).2 target
        exact ⟨h1.trans hcap, h2.trans hoffs⟩
    · rw [Bool.not_eq_true] at hb
      rw [hb]
      simp only [Bool.false_eq_true, if_false]
      by_cases hstop : target = newT.numFilled
      · rw [if_pos hstop]
        exact ⟨rfl, rfl⟩
      · rw [if_neg hstop]
        exact ih newT target

theorem rehash_fields (t : HashTable) :
    t.rehash.capacity = newCapacity t ∧
    t.rehash.offsets = (mkHashTable t.hash t.shuffle (newCapacity t) (1 / 2) 2).offsets ∧
    t.rehash.numFilled = t.numFilled ∧
    t.rehash.threshold = t.threshold ∧
    t.rehash.resizeFactor = t.resizeFactor := by
  obtain ⟨h1, h2⟩ := rehashLoop_fields t.tableData
    (mkHashTable t.hash t.shuffle (newCapacity t) (1 / 2) 2) t.numFilled
  have hreq : t.rehash =
      { t with
        tableData := (rehashLoop t.numFilled t.tableData
          (mkHashTable t.hash t.shuffle (newCapacity t) (1 / 2) 2)).tableData
        offsets := (rehashLoop t.numFilled t.tableData
          (mkHashTable t.hash t.shuffle (newCapacity t) (1 / 2) 2)).offsets } := rfl
  rw [hreq]
  refine ⟨?_, h2, rfl, rfl, rfl⟩
  show (rehashLoop t.numFilled t.tableData
    (mkHashTable t.hash t.shuffle (newCapacity t) (1 / 2) 2)).tableData.length = newCapacity t
  have h3 := mk_capacity t.hash t.shuffle (newCapacity t) (1 / 2) 2
  rw [HashTable.capacity, HashTable.capacity] at h1
  rw [HashTable.capacity] at h3
  rw [h1, h3]

/-! The insert scan under the preconditions of claims C1 and C10. -/

theorem insert_scan_place_of (t : HashTable) (k : String) (hnc : t.contains k = false)
    (hempty : ∃ o ∈ t.offsets,
      (getBucket t.tableData (probeIdx t.capacity (t.hash k % t.capacity) o)).isEmpty = true) :
    ∃ c, specInsertSlot t.tableData t.capacity (t.hash k % t.capacity) t.offsets = some c ∧
      firstEmptyIdx t.tableData t.capacity (t.hash k % t.capacity) t.offsets = some c ∧
      insertScan t.tableData t.capacity (t.hash k % t.capacity) k t.offsets none =
        ScanResult.place c ∧
      t.find k = none := by
  have hfn : t.find k = none := by
    cases hf : t.find k with
    | none => rfl
    | some i =>
      rw [HashTable.contains, hf] at hnc
      cases hnc
  obtain ⟨c, hfe⟩ :=
    firstEmptyIdx_isSome t.tableData t.capacity (t.hash k % t.capacity) t.offsets hempty
  have hchar := insertScan_of_find_none t.tableData t.capacity (t.hash k % t.capacity) k
    t.offsets none hfn
  rw [hfe] at hchar
  refine ⟨c, ?_, hfe, hchar, hfn⟩
  rw [specInsertSlot_eq_firstEmptyIdx]
  exact hfe

/-! The TCT scan agrees with the insert scan. -/

theorem tctScan_toScan (data : List HashTableBucket) (cap home : Nat) (key : String) :
    ∀ offs acc p,
      (insertScanTCT data cap home key offs acc p).toScan =
        insertScan data cap home key offs acc := by
  intro offs
  induction offs with
  | nil =>
    intro acc p
    cases acc <;> rfl
  | cons o rest ih =>
    intro acc p
    rw [insertScan_cons]
    rw [show insertScanTCT data cap home key (o :: rest) acc p =
      (if (getBucket data (probeIdx cap home o)).isEmpty then
        if (getBucket data (probeIdx cap home o)).isESS then
          TCTScan.placeAt (acc.getD (probeIdx cap home o)) (p + 1)
        else
          insertScanTCT data cap home key rest
            (match acc with
             | none => some (probeIdx cap home o)
             | some e => some e) (p + 1)
      else if key = (getBucket data (probeIdx cap home o)).getKey then TCTScan.dupAt (p + 1)
      else insertScanTCT data cap home key rest acc (p + 1)) from rfl]
    by_cases h1 : (getBucket data (probeIdx cap home o)).isEmpty = true
    · rw [if_pos h1, if_pos h1]
      by_cases h2 : (getBucket data (probeIdx cap home o)).isESS = true
      · rw [if_pos h2, if_pos h2]
        rfl
      · rw [if_neg h2, if_neg h2]
        exact ih _ (p + 1)
    · rw [if_neg h1, if_neg h1]
      by_cases h3 : key = (getBucket data (probeIdx cap home o)).getKey
      · rw [if_pos h3, if_pos h3]
        rfl
      · rw [if_neg h3, if_neg h3]
        exact ih acc (p + 1)

theorem insertTCT_table_eq (t : HashTable) (k : String) (v : Nat) :
    (t.insertTCT k v).2 =
      (match insertScan t.tableData t.capacity (t.hash k % t.capacity) k t.offsets none with
       | ScanResult.dup => t
       | ScanResult.full => t
       | ScanResult.place i =>
         { t with
           tableData := t.tableData.set i ((getBucket t.tableData i).load k v)
           numFilled := t.numFilled + 1 }) := by
  rw [← tctScan_toScan t.tableData t.capacity (t.hash k % t.capacity) k t.offsets none 0]
  unfold HashTable.insertTCT
  cases h : insertScanTCT t.tableData t.capacity (t.hash k % t.capacity) k t.offsets none 0 with
  | dupAt p => rfl
  | placeAt i p => rfl
  | exhausted acc => cases acc <;> rfl

theorem insertTCT_fields (t : HashTable) (k : String) (v : Nat) :
    (t.insertTCT k v).2.capacity = t.capacity ∧
    (t.insertTCT k v).2.offsets = t.offsets ∧
    (t.insertTCT k v).2.threshold = t.threshold := by
  rw [show ((t.insertTCT k v).2.capacity = t.capacity ∧
      (t.insertTCT k v).2.offsets = t.offsets ∧
      (t.insertTCT k v).2.threshold = t.threshold) =
    (((t.insertTCT k v).2.capacity = t.capacity ∧
      (t.insertTCT k v).2.offsets = t.offsets ∧
      (t.insertTCT k v).2.threshold = t.threshold)) from rfl]
  rw [show (t.insertTCT k v).2 = _ from insertTCT_table_eq t k v]
  cases insertScan t.tableData t.capacity (t.hash k % t.capacity) k t.offsets none with
  | dup => exact ⟨rfl, rfl, rfl⟩
  | full => exact ⟨rfl, rfl, rfl⟩
  | place i =>
    refine ⟨?_, rfl, rfl⟩
    show (t.tableData.set i ((getBucket t.tableData i).load k v)).length = t.tableData.length
    exact List.length_set t.tableData i _

/-- Claim C1: on a table that does not contain the key and whose probe path
holds at least one NeverUsed or Tombstone slot, `insert` places the entry
at the slot described by the spec's rule (the first Tombstone seen before
or instead of the first NeverUsed slot, else the first NeverUsed slot),
marks it Occupied with that key and value, increments the fill count by
exactly one, and returns true. The slot contents are stated for the case
in which the insertion does not trigger the rehash that rebuilds the
table. -/
theorem claim1_insert_placement (t : HashTable) (k : String) (v : Nat)
    (hcap : 0 < t.capacity) (hnc : t.contains k = false)
    (hempty : ∃ o ∈ t.offsets,
      (getBucket t.tableData (probeIdx t.capacity (t.hash k % t.capacity) o)).isEmpty = true) :
    ∃ c, specInsertSlot t.tableData t.capacity (t.hash k % t.capacity) t.offsets = some c ∧
      (t.insert k v).1 = true ∧
      (t.insert k v).2.numFilled = t.numFilled + 1 ∧
      (¬ t.threshold ≤ ((t.numFilled : ℚ) + 1) / (t.capacity : ℚ) →
        (t.insert k v).2.tableData =
          t.tableData.set c ((getBucket t.tableData c).load k v) ∧
        getBucket (t.insert k v).2.tableData c = ⟨k, v, BucketType.NORMAL⟩) := by
  obtain ⟨c, hspec, hfe, hscan, hfn⟩ := insert_scan_place_of t k hnc hempty
  obtain ⟨hemp, hcltf, _, _, _, _, _, _⟩ :=
    firstEmptyIdx_spec t.tableData t.capacity (t.hash k % t.capacity) t.offsets c hfe
  have hclt : c < t.tableData.length := hcltf hcap
  have heq : t.insert k v =
      (if ({ t with
          tableData := t.tableData.set c ((getBucket t.tableData c).load k v)
          numFilled := t.numFilled + 1 } : HashTable).threshold ≤
          ({ t with
          tableData := t.tableData.set c ((getBucket t.tableData c).load k v)
          numFilled := t.numFilled + 1 } : HashTable).alpha
       then (true, ({ t with
          tableData := t.tableData.set c ((getBucket t.tableData c).load k v)
          numFilled := t.numFilled + 1 } : HashTable).rehash)
       else (true, { t with
          tableData := t.tableData.set c ((getBucket t.tableData c).load k v)
          numFilled := t.numFilled + 1 })) := by
    unfold HashTable.insert
    rw [hscan]
  have halpha : ({ t with
      tableData := t.tableData.set c ((getBucket t.tableData c).load k v)
      numFilled := t.numFilled + 1 } : HashTable).alpha =
      ((t.numFilled : ℚ) + 1) / (t.capacity : ℚ) := by
    show ((t.numFilled + 1 : Nat) : ℚ) /
      (((t.tableData.set c ((getBucket t.tableData c).load k v)).length : Nat) : ℚ) = _
    rw [List.length_set]
    push_cast
    rfl
  refine ⟨c, hspec, ?_, ?_, ?_⟩
  · rw [heq]
    split
    · rfl
    · rfl
  · rw [heq]
    split
    · rfl
    · rfl
  · intro hα
    have hcond : ¬ ({ t with
        tableData := t.tableData.set c ((getBucket t.tableData c).load k v)
        numFilled := t.numFilled + 1 } : HashTable).threshold ≤
        ({ t with
        tableData := t.tableData.set c ((getBucket t.tableData c).load k v)
        numFilled := t.numFilled + 1 } : HashTable).alpha := by
      rw [halpha]
      exact hα
    rw [heq, if_neg hcond]
    refine ⟨rfl, ?_⟩
    show getBucket (t.tableData.set c ((getBucket t.tableData c).load k v)) c =
      ⟨k, v, BucketType.NORMAL⟩
    rw [getBucket_set_self t.tableData c _ hclt]
    rfl

/-- Claim C4: inserting a key that `find` locates in an Occupied slot
(the probe for it walks over any Tombstones rather than stopping there)
returns false and leaves the table — its slots, its fill count, and the
result of `get` on that key — completely unchanged. -/
theorem claim4_duplicate_insert (t : HashTable) (k : String) (v : Nat) (i : Nat)
    (hfound : t.find k = some i) :
    (t.insert k v).1 = false ∧ (t.insert k v).2 = t ∧
    (t.insert k v).2.tableData = t.tableData ∧
    (t.insert k v).2.numFilled = t.numFilled ∧
    (t.insert k v).2.get k = t.get k := by
  have hdup := insertScan_dup_of_found t.tableData t.capacity (t.hash k % t.capacity) k
    t.offsets none i hfound
  have heq : t.insert k v = (false, t) := by
    unfold HashTable.insert
    rw [hdup]
  rw [heq]
  exact ⟨rfl, rfl, rfl, rfl, rfl⟩

/-- Claim C5: when the table contains key k (its slot is the unique
Occupied slot holding k), `remove k` returns true, turns that slot into a
Tombstone (EAR), and afterwards `get k` is absent and `contains k` is
false; when `find` does not locate k, `remove k` returns false and changes
nothing. -/
theorem claim5_remove_roundtrip (t : HashTable) (k : String) :
    (∀ i, t.find k = some i →
      (∀ j, j < t.tableData.length → j ≠ i →
        ¬((getBucket t.tableData j).isEmpty = false ∧ (getBucket t.tableData j).key = k)) →
      (t.remove k).1 = true ∧
      (getBucket (t.remove k).2.tableData i).type = BucketType.EAR ∧
      (t.remove k).2.get k = none ∧
      (t.remove k).2.contains k = false ∧
      (t.remove k).2.numFilled = t.numFilled - 1) ∧
    (t.find k = none → t.remove k = (false, t)) := by
  constructor
  · intro i hfound huniq
    obtain ⟨h1, _, h3, h4, h5, h6⟩ := remove_found t k i hfound huniq
    exact ⟨h1, h4, h5, h6, h3⟩
  · exact remove_of_find_none t k

/-- Claim C6: `alpha()` is by definition `size()/capacity()`, and an
insert that succeeds while bringing the post-placement load factor to or
above the threshold triggers the rehash inside that insert, so the
resulting table has a strictly larger capacity (stated for the default
resize regime, a resize factor of at least 2). -/
theorem claim6_alpha_rehash (t : HashTable) (k : String) (v : Nat) :
    t.alpha = (t.size : ℚ) / (t.capacity : ℚ) ∧
    ((t.insert k v).1 = true →
      t.threshold ≤ ((t.numFilled : ℚ) + 1) / (t.capacity : ℚ) →
      2 ≤ t.resizeFactor → 0 < t.capacity →
      t.capacity < (t.insert k v).2.capacity) := by
  refine ⟨rfl, ?_⟩
  intro htrue hα hrf hcap
  rcases hscan : insertScan t.tableData t.capacity (t.hash k % t.capacity) k t.offsets none
    with _ | c | _
  · have heq : t.insert k v = (false, t) := by
      unfold HashTable.insert
      rw [hscan]
    rw [heq] at htrue
    cases htrue
  · have heq : t.insert k v =
        (if ({ t with
            tableData := t.tableData.set c ((getBucket t.tableData c).load k v)
            numFilled := t.numFilled + 1 } : HashTable).threshold ≤
            ({ t with
            tableData := t.tableData.set c ((getBucket t.tableData c).load k v)
            numFilled := t.numFilled + 1 } : HashTable).alpha
         then (true, ({ t with
            tableData := t.tableData.set c ((getBucket t.tableData c).load k v)
            numFilled := t.numFilled + 1 } : HashTable).rehash)
         else (true, { t with
            tableData := t.tableData.set c ((getBucket t.tableData c).load k v)
            numFilled := t.numFilled + 1 })) := by
      unfold HashTable.insert
      rw [hscan]
    have hlen2 : (t.tableData.set c ((getBucket t.tableData c).load k v)).length =
        t.tableData.length := List.length_set t.tableData c _
    have halpha : ({ t with
        tableData := t.tableData.set c ((getBucket t.tableData c).load k v)
        numFilled := t.numFilled + 1 } : HashTable).alpha =
        ((t.numFilled : ℚ) + 1) / (t.capacity : ℚ) := by
      show ((t.numFilled + 1 : Nat) : ℚ) /
        (((t.tableData.set c ((getBucket t.tableData c).load k v)).length : Nat) : ℚ) = _
      rw [List.length_set]
      push_cast
      rfl
    have hcond : ({ t with
        tableData := t.tableData.set c ((getBucket t.tableData c).load k v)
        numFilled := t.numFilled + 1 } : HashTable).threshold ≤
        ({ t with
        tableData := t.tableData.set c ((getBucket t.tableData c).load k v)
        numFilled := t.numFilled + 1 } : HashTable).alpha := by
      rw [halpha]
      exact hα
    rw [heq, if_pos hcond]
    obtain ⟨hrcap, _, _, _, _⟩ := rehash_fields { t with
        tableData := t.tableData.set c ((getBucket t.tableData c).load k v)
        numFilled := t.numFilled + 1 }
    show t.capacity < ({ t with
        tableData := t.tableData.set c ((getBucket t.tableData c).load k v)
        numFilled := t.numFilled + 1 } : HashTable).rehash.capacity
    rw [hrcap]
    have hlt := lt_newCapacity { t with
        tableData := t.tableData.set c ((getBucket t.tableData c).load k v)
        numFilled := t.numFilled + 1 } hrf (by
      show 0 < (t.tableData.set c ((getBucket t.tableData c).load k v)).length
      rw [hlen2]
      exact hcap)
    rw [show ({ t with
        tableData := t.tableData.set c ((getBucket t.tableData c).load k v)
        numFilled := t.numFilled + 1 } : HashTable).capacity = t.capacity from hlen2] at hlt
    exact hlt
  · have heq : t.insert k v = (false, t) := by
      unfold HashTable.insert
      rw [hscan]
    rw [heq] at htrue
    cases htrue

/-- Claim C2: on an invariant-satisfying table (with the shuffle honouring
its permutation contract and the live entries fitting the new capacity),
`rehash` preserves all live key-value pairs exactly: `get` is unchanged on
every key, `keys()` is unchanged as a set, and `size()` is unchanged. -/
theorem claim2_rehash_preserves (t : HashTable) (hInv : TableInv t)
    (hsh : ∀ l, (t.shuffle l).Perm l)
    (hroom : t.numFilled ≤ newCapacity t) (hpos : 0 < newCapacity t) :
    (∀ k, t.rehash.get k = t.get k) ∧
    (∀ k, k ∈ t.rehash.keys ↔ k ∈ t.keys) ∧
    t.rehash.size = t.size := by
  obtain ⟨hInvR, hpairsR, _, _, _, _⟩ := rehash_spec t hInv hsh hroom hpos
  refine ⟨?_, ?_, rfl⟩
  · intro k
    refine option_nat_ext _ _ ?_
    intro v
    rw [get_eq_some_iff_of_inv t.rehash hInvR k v, get_eq_some_iff_of_inv t hInv k v]
    exact hpairsR.mem_iff
  · intro k
    rw [keys_eq_occKeys t.rehash hInvR.2.1, keys_eq_occKeys t hInv.2.1]
    rw [occKeys_eq_map_fst, occKeys_eq_map_fst]
    exact (hpairsR.map Prod.fst).mem_iff

/-- Claim C3: after any finite sequence of insert and remove operations on
a freshly constructed table (positive capacity, resize factor at least 1,
shuffle honouring its permutation contract), `size()` equals the number of
distinct keys for which `contains` is true: the occupied keys are pairwise
distinct, `contains` holds exactly on them, their number is `size()`, and
`numFilled` equals the count of Occupied slots. -/
theorem claim3_size_is_contains_count (hash : String → Nat) (shuffle : List Nat → List Nat)
    (c : Nat) (th rf : ℚ) (ops : List TableOp)
    (hsh : ∀ l, (shuffle l).Perm l) (hc : 0 < c) (hrf : 1 ≤ rf) :
    (runOps (mkHashTable hash shuffle c th rf) ops).size =
      (occKeys (runOps (mkHashTable hash shuffle c th rf) ops).tableData).length ∧
    (occKeys (runOps (mkHashTable hash shuffle c th rf) ops).tableData).Nodup ∧
    (∀ k, (runOps (mkHashTable hash shuffle c th rf) ops).contains k = true ↔
      k ∈ occKeys (runOps (mkHashTable hash shuffle c th rf) ops).tableData) ∧
    (runOps (mkHashTable hash shuffle c th rf) ops).numFilled =
      countOcc (runOps (mkHashTable hash shuffle c th rf) ops).tableData := by
  obtain ⟨hInv, _, _, _⟩ :=
    good_runOps ops (mkHashTable hash shuffle c th rf) (good_mk hash shuffle c th rf hsh hc hrf)
  refine ⟨?_, hInv.2.2.1, fun k => contains_iff_of_inv _ hInv k, hInv.2.1⟩
  rw [length_occKeys]
  exact hInv.2.1

unseal Rat.mul Rat.inv Rat.add Rat.sub Rat.ofScientific in
/-- Counterexample to claim C7: the constructor performs no validation at
all. Constructing with a negative load-factor threshold and a resize
factor of 1 (both contract violations) completes normally, stores those
parameters, and even accepts a subsequent insert, instead of being
rejected at construction time. -/
theorem claim7_counterexample :
    (mkHashTable (fun _ => 0) id 8 (-1) 1).capacity = 8 ∧
    (mkHashTable (fun _ => 0) id 8 (-1) 1).threshold = -1 ∧
    (mkHashTable (fun _ => 0) id 8 (-1) 1).resizeFactor = 1 ∧
    ((mkHashTable (fun _ => 0) id 8 (-1) 1).insert "a" 1).1 = true := by
  refine ⟨by decide, by decide, by decide, by decide⟩

/-- Claim C7 (amended): construction is never rejected. The constructor
accepts any capacity, threshold and resize factor — including capacity 0,
non-positive thresholds and resize factors not greater than 1 — and
produces a table with exactly those parameters and no entries; invalid
parameters surface only as later misbehaviour. -/
theorem claim7_amended_no_validation (hash : String → Nat) (shuffle : List Nat → List Nat)
    (c : Nat) (th rf : ℚ) :
    (mkHashTable hash shuffle c th rf).capacity = c ∧
    (mkHashTable hash shuffle c th rf).threshold = th ∧
    (mkHashTable hash shuffle c th rf).resizeFactor = rf ∧
    (mkHashTable hash shuffle c th rf).size = 0 := by
  refine ⟨?_, rfl, rfl, rfl⟩
  show (List.replicate c (default : HashTableBucket)).length = c
  exact List.length_replicate c default

/-- Claim C8: writing through `operator[]` on an absent key lands in the
process-owned `badKeyDrain` cell and leaves the table observationally
unchanged — `size()`, `keys()`, and `get`/`contains` on every key are as
before; on a present key `operator[]` exposes that key's stored value
cell, and writing through it updates the value seen by `get`. -/
theorem claim8_subscript_sentinel (t : HashTable) (k : String) (v : Nat) :
    (t.find k = none →
      (t.subscriptSet k v).size = t.size ∧
      (t.subscriptSet k v).keys = t.keys ∧
      (∀ k2, (t.subscriptSet k v).get k2 = t.get k2) ∧
      (∀ k2, (t.subscriptSet k v).contains k2 = t.contains k2) ∧
      (t.subscriptSet k v).badKeyDrain = v) ∧
    (∀ i, t.find k = some i →
      t.subscriptGet k = (getBucket t.tableData i).getValue ∧
      (t.subscriptSet k v).get k = some v) := by
  constructor
  · intro hfn
    have heq : t.subscriptSet k v = { t with badKeyDrain := v } := by
      unfold HashTable.subscriptSet
      rw [hfn]
    rw [heq]
    exact ⟨rfl, rfl, fun k2 => rfl, fun k2 => rfl, rfl⟩
  · intro i hfound
    obtain ⟨hi, hocc, hkey⟩ :=
      findLoop_spec t.tableData t.capacity (t.hash k % t.capacity) k rfl t.offsets i hfound
    have heq : t.subscriptSet k v =
        { t with tableData := t.tableData.set i { getBucket t.tableData i with value := v } } := by
      unfold HashTable.subscriptSet
      rw [hfound]
    have hgeq : t.subscriptGet k = (getBucket t.tableData i).getValue := by
      unfold HashTable.subscriptGet
      rw [hfound]
    refine ⟨hgeq, ?_⟩
    rw [heq]
    have hcongr : ∀ j, (getBucket (t.tableData.set i
        { getBucket t.tableData i with value := v }) j).type = (getBucket t.tableData j).type ∧
        (getBucket (t.tableData.set i
        { getBucket t.tableData i with value := v }) j).key = (getBucket t.tableData j).key := by
      intro j
      by_cases hji : j = i
      · subst hji
        rw [getBucket_set_self t.tableData j _ hi]
        exact ⟨rfl, rfl⟩
      · rw [getBucket_set_ne t.tableData i j _ (fun he => hji he.symm)]
        exact ⟨rfl, rfl⟩
    have hfind2 : HashTable.find
        { t with tableData := t.tableData.set i { getBucket t.tableData i with value := v } } k
        = some i := by
      show findLoop (t.tableData.set i { getBucket t.tableData i with value := v })
        ((t.tableData.set i { getBucket t.tableData i with value := v }).length)
        (t.hash k % ((t.tableData.set i { getBucket t.tableData i with value := v }).length)) k
        t.offsets = some i
      rw [List.length_set]
      rw [findLoop_congr_typekey t.tableData
        (t.tableData.set i { getBucket t.tableData i with value := v })
        t.tableData.length (t.hash k % t.tableData.length) k hcongr t.offsets]
      exact hfound
    show (HashTable.find _ k).map _ = some v
    rw [hfind2]
    show some (getBucket (t.tableData.set i { getBucket t.tableData i with value := v })
      i).getValue = some v
    rw [getBucket_set_self t.tableData i _ hi]
    rfl

/-- Claim C9: after construction (and the offsets adopted from every
rehash) the offsets sequence has length equal to the capacity, starts with
0, and is a permutation of 0 .. capacity-1; both the constructor and
`rehash` generate the sequence afresh through the shuffle, assumed (as
`std::shuffle` guarantees) to permute its input. -/
theorem claim9_offsets_permutation (hash : String → Nat) (shuffle : List Nat → List Nat)
    (c : Nat) (th rf : ℚ) (t : HashTable)
    (hsh : ∀ l, (shuffle l).Perm l) (hsh2 : ∀ l, (t.shuffle l).Perm l)
    (hc : 0 < c) (hpos : 0 < newCapacity t) :
    ((mkHashTable hash shuffle c th rf).offsets.length =
        (mkHashTable hash shuffle c th rf).capacity ∧
      (mkHashTable hash shuffle c th rf).offsets.head? = some 0 ∧
      (mkHashTable hash shuffle c th rf).offsets.Perm
        (List.range (mkHashTable hash shuffle c th rf).capacity)) ∧
    (t.rehash.offsets.length = t.rehash.capacity ∧
      t.rehash.offsets.head? = some 0 ∧
      t.rehash.offsets.Perm (List.range t.rehash.capacity)) := by
  obtain ⟨hperm, hhead, hlen⟩ := mk_offsets_perm hash shuffle c th rf hsh hc
  obtain ⟨hrcap, hroffs, _, _, _⟩ := rehash_fields t
  obtain ⟨hperm2, hhead2, hlen2⟩ :=
    mk_offsets_perm t.hash t.shuffle (newCapacity t) (1 / 2) 2 hsh2 hpos
  constructor
  · rw [mk_capacity]
    exact ⟨hlen, hhead, hperm⟩
  · rw [hroffs, hrcap]
    exact ⟨hlen2, hhead2, hperm2⟩

unseal Rat.mul Rat.inv Rat.add Rat.sub Rat.ofScientific in
/-- Claim C10: `insertTCT` really inserts — under the same preconditions
as claim C1 it mutates the chosen slot and increments the fill count
exactly like `insert`'s placement rule — but it never rehashes: capacity,
offsets and threshold are untouched by every call, and a concrete
two-element table reaches a load factor at the threshold while its
capacity stays unchanged. -/
theorem claim10_insertTCT_no_rehash (t : HashTable) (k : String) (v : Nat)
    (hnc : t.contains k = false)
    (hempty : ∃ o ∈ t.offsets,
      (getBucket t.tableData (probeIdx t.capacity (t.hash k % t.capacity) o)).isEmpty = true) :
    (∀ (t2 : HashTable) (k2 : String) (v2 : Nat),
      (t2.insertTCT k2 v2).2.capacity = t2.capacity ∧
      (t2.insertTCT k2 v2).2.offsets = t2.offsets ∧
      (t2.insertTCT k2 v2).2.threshold = t2.threshold) ∧
    (∃ c, specInsertSlot t.tableData t.capacity (t.hash k % t.capacity) t.offsets = some c ∧
      (t.insertTCT k v).2.tableData =
        t.tableData.set c ((getBucket t.tableData c).load k v) ∧
      (t.insertTCT k v).2.numFilled = t.numFilled + 1) ∧
    ((mkHashTable String.length id 2 (1 / 2) 2).threshold ≤
        (((mkHashTable String.length id 2 (1 / 2) 2).insertTCT "a" 1).2.insertTCT "b" 2).2.alpha ∧
      (((mkHashTable String.length id 2 (1 / 2) 2).insertTCT "a" 1).2.insertTCT "b" 2).2.capacity
        = (mkHashTable String.length id 2 (1 / 2) 2).capacity) := by
  refine ⟨fun t2 k2 v2 => insertTCT_fields t2 k2 v2, ?_, by decide, by decide⟩
  obtain ⟨c, hspec, _, hscan, _⟩ := insert_scan_place_of t k hnc hempty
  refine ⟨c, hspec, ?_, ?_⟩
  · rw [insertTCT_table_eq t k v, hscan]
  · rw [insertTCT_table_eq t k v, hscan]

/-- Witness for claim C1 at a concrete table: inserting a fresh key into
an empty two-slot table succeeds. -/
theorem claim1_witness :
    ((mkHashTable String.length id 2 (1 / 2) 2).insert "aa" 5).1 = true := by
  obtain ⟨c, h1, h2, h3, h4⟩ :=
    claim1_insert_placement (mkHashTable String.length id 2 (1 / 2) 2) "aa" 5
      (by decide) (by decide) ⟨0, by decide, by decide⟩
  exact h2

unseal Rat.mul Rat.inv Rat.add Rat.sub Rat.ofScientific in
/-- Witness for claim C2 at a concrete one-entry table. -/
theorem claim2_witness :
    ({ threshold := 1 / 2, resizeFactor := 2,
            tableData := [⟨"aa", 5, BucketType.NORMAL⟩, default], offsets := [0, 1],
            numFilled := 1, hash := String.length, shuffle := id,
            badKeyDrain := 0 } : HashTable).rehash.get "aa" =
    ({ threshold := 1 / 2, resizeFactor := 2,
            tableData := [⟨"aa", 5, BucketType.NORMAL⟩, default], offsets := [0, 1],
            numFilled := 1, hash := String.length, shuffle := id,
            badKeyDrain := 0 } : HashTable).get "aa" :=
  (claim2_rehash_preserves
    { threshold := 1 / 2, resizeFactor := 2,
            tableData := [⟨"aa", 5, BucketType.NORMAL⟩, default], offsets := [0, 1],
            numFilled := 1, hash := String.length, shuffle := id, badKeyDrain := 0 }
    ⟨by decide, by decide, by decide, by decide⟩
    (fun l => List.Perm.refl l) (by decide) (by decide)).1 "aa"

/-- Witness for claim C3 at a concrete operation sequence (which crosses
the rehash threshold on the way). -/
theorem claim3_witness :
    (runOps (mkHashTable String.length id 4 1 2)
      [TableOp.ins "a" 1, TableOp.ins "bb" 2, TableOp.rem "a"]).size =
    (occKeys (runOps (mkHashTable String.length id 4 1 2)
      [TableOp.ins "a" 1, TableOp.ins "bb" 2, TableOp.rem "a"]).tableData).length :=
  (claim3_size_is_contains_count String.length id 4 1 2
    [TableOp.ins "a" 1, TableOp.ins "bb" 2, TableOp.rem "a"]
    (fun l => List.Perm.refl l) (by decide) (by decide)).1

/-- Witness for claim C4 at a concrete table in which a tombstone precedes
the occupied slot on the key's probe path. -/
theorem claim4_witness :
    (({ threshold := 1, resizeFactor := 2,
            tableData := [⟨"x", 9, BucketType.EAR⟩, ⟨"aa", 5, BucketType.NORMAL⟩],
        offsets := [0, 1], numFilled := 1, hash := String.length, shuffle := id,
            badKeyDrain := 0 } : HashTable).insert "aa" 7).1 = false ∧
    (({ threshold := 1, resizeFactor := 2,
            tableData := [⟨"x", 9, BucketType.EAR⟩, ⟨"aa", 5, BucketType.NORMAL⟩],
        offsets := [0, 1], numFilled := 1, hash := String.length, shuffle := id,
            badKeyDrain := 0 } : HashTable).insert "aa" 7).2 =
      { threshold := 1, resizeFactor := 2,
            tableData := [⟨"x", 9, BucketType.EAR⟩, ⟨"aa", 5, BucketType.NORMAL⟩],
        offsets := [0, 1], numFilled := 1, hash := String.length, shuffle := id,
            badKeyDrain := 0 } := by
  obtain ⟨h1, h2, _, _, _⟩ :=
    claim4_duplicate_insert
      { threshold := 1, resizeFactor := 2,
            tableData := [⟨"x", 9, BucketType.EAR⟩, ⟨"aa", 5, BucketType.NORMAL⟩],
        offsets := [0, 1], numFilled := 1, hash := String.length, shuffle := id,
            badKeyDrain := 0 } "aa" 7 1 (by decide)
  exact ⟨h1, h2⟩

/-- Witness for claim C5 at a concrete table: removing the only entry
succeeds and afterwards the key is gone. -/
theorem claim5_witness :
    (({ threshold := 1, resizeFactor := 2,
            tableData := [⟨"x", 9, BucketType.EAR⟩, ⟨"aa", 5, BucketType.NORMAL⟩],
        offsets := [0, 1], numFilled := 1, hash := String.length, shuffle := id,
            badKeyDrain := 0 } : HashTable).remove "aa").1 = true ∧
    (({ threshold := 1, resizeFactor := 2,
            tableData := [⟨"x", 9, BucketType.EAR⟩, ⟨"aa", 5, BucketType.NORMAL⟩],
        offsets := [0, 1], numFilled := 1, hash := String.length, shuffle := id,
            badKeyDrain := 0 } : HashTable).remove "aa").2.contains "aa" = false := by
  obtain ⟨h1, h2, h3, h4, h5⟩ :=
    (claim5_remove_roundtrip
      { threshold := 1, resizeFactor := 2,
            tableData := [⟨"x", 9, BucketType.EAR⟩, ⟨"aa", 5, BucketType.NORMAL⟩],
        offsets := [0, 1], numFilled := 1, hash := String.length, shuffle := id,
            badKeyDrain := 0 } "aa").1 1 (by decide) (by decide)
  exact ⟨h1, h4⟩

unseal Rat.mul Rat.inv Rat.add Rat.sub Rat.ofScientific in
/-- Witness for claim C6 at a concrete table: an insert that reaches the
load-factor threshold leaves behind a strictly larger capacity. -/
theorem claim6_witness :
    (mkHashTable String.length id 2 (1 / 2) 2).capacity <
    ((mkHashTable String.length id 2 (1 / 2) 2).insert "aa" 5).2.capacity :=
  (claim6_alpha_rehash (mkHashTable String.length id 2 (1 / 2) 2) "aa" 5).2
    (by decide) (by decide) (by decide) (by decide)

/-- Witness for claim C8 at a concrete table: a write through the
subscript operator on a missing key leaves `keys` unchanged, and on a
present key it updates the stored value. -/
theorem claim8_witness :
    (({ threshold := 1, resizeFactor := 2,
            tableData := [⟨"aa", 5, BucketType.NORMAL⟩, default], offsets := [0, 1],
            numFilled := 1, hash := String.length, shuffle := id,
            badKeyDrain := 0 } : HashTable).subscriptSet "zzz" 3).keys =
      ({ threshold := 1, resizeFactor := 2,
            tableData := [⟨"aa", 5, BucketType.NORMAL⟩, default], offsets := [0, 1],
            numFilled := 1, hash := String.length, shuffle := id,
            badKeyDrain := 0 } : HashTable).keys ∧
    (({ threshold := 1, resizeFactor := 2,
            tableData := [⟨"aa", 5, BucketType.NORMAL⟩, default], offsets := [0, 1],
            numFilled := 1, hash := String.length, shuffle := id,
            badKeyDrain := 0 } : HashTable).subscriptSet "aa" 9).get "aa" = some 9 := by
  refine ⟨?_, ?_⟩
  · exact ((claim8_subscript_sentinel
      { threshold := 1, resizeFactor := 2,
            tableData := [⟨"aa", 5, BucketType.NORMAL⟩, default], offsets := [0, 1],
            numFilled := 1, hash := String.length, shuffle := id,
            badKeyDrain := 0 } "zzz" 3).1 (by decide)).2.1
  · exact (((claim8_subscript_sentinel
      { threshold := 1, resizeFactor := 2,
            tableData := [⟨"aa", 5, BucketType.NORMAL⟩, default], offsets := [0, 1],
            numFilled := 1, hash := String.length, shuffle := id,
            badKeyDrain := 0 } "aa" 9).2 0 (by decide)).2)

unseal Rat.mul Rat.inv Rat.add Rat.sub Rat.ofScientific in
/-- Witness for claim C9 at concrete tables: a fresh three-slot table's
offsets start with 0, and a rehashed two-slot table's offsets have the new
capacity's length. -/
theorem claim9_witness :
    (mkHashTable String.length id 3 1 2).offsets.head? = some 0 ∧
    (mkHashTable String.length id 2 (1 / 2) 2).rehash.offsets.length =
      (mkHashTable String.length id 2 (1 / 2) 2).rehash.capacity := by
  obtain ⟨⟨h1a, h1b, h1c⟩, h2a, h2b, h2c⟩ :=
    claim9_offsets_permutation String.length id 3 1 2
      (mkHashTable String.length id 2 (1 / 2) 2)
      (fun l => List.Perm.refl l) (fun l => List.Perm.refl l) (by decide) (by decide)
  exact ⟨h1b, h2a⟩

/-- Witness for claim C10 at a concrete table: `insertTCT` of a fresh key
into an empty four-slot table increments the fill count to 1. -/
theorem claim10_witness :
    ((mkHashTable String.length id 4 1 2).insertTCT "aa" 5).2.numFilled = 1 := by
  obtain ⟨_, ⟨c, _, _, hfill⟩, _⟩ :=
    claim10_insertTCT_no_rehash (mkHashTable String.length id 4 1 2) "aa" 5
      (by decide) ⟨0, by decide, by decide⟩
  exact hfill
